import Mathlib

/-!
Verification of the in-memory VFS core of `first_practic/shell_emulator.py`.

The Python code manipulates a heap of `VNode` objects (`VDir` / `VFile`)
linked by parent back-references and by each directory's name → child
dictionary.  We embed that heap explicitly: a `VFS` is a list of node
records, a node id is the index at which the record was allocated
(allocation appends, mirroring the fact that Python creates a fresh object
for every `VDir(...)` / `VFile(...)` call and never re-attaches a node).
Object identity in Python corresponds to equality of node ids here.

Dictionaries are embedded as association lists with Python-dict update
semantics (overwriting an existing key keeps its position, new keys are
appended); this matters because the source sorts children with Python's
stable `sorted`, whose tie behaviour depends on insertion order.

Recursive operations of the source that can diverge on aliased inputs
(`_copy_recursive`, `_walk_vfs`) take an explicit fuel argument; running
out of fuel models Python's `RecursionError` (for `_copy_recursive`,
which really does overflow the stack when a directory is copied into its
own subtree) respectively a bound that is irrelevant on well-formed trees.
-/

namespace ShellEmulator

/-- Error kinds surfaced by the VFS core.  Each constructor corresponds to
one family of `raise` sites in the Python source; `recursionError` models
Python's stack overflow, and `badState` marks situations that are
impossible for the actual Python heap (dangling ids, wrong receiver type)
but expressible in the embedding. -/
inductive Err where
  | notFound
  | notADirectory
  | typeConflict
  | alreadyExists
  | invalidPath
  | recursionError
  | badState
deriving Repr, DecidableEq

/-- Payload of a node: `VDir` owns a name → child-id dictionary, `VFile`
owns a byte buffer (bytes are modelled as naturals). -/
inductive VData where
  | dir (children : List (String × Nat))
  | file (content : List Nat)
deriving Repr, DecidableEq

/-- One heap record: `VNode.__init__` stores `name` and `parent`;
the subclass determines the payload. -/
structure VNode where
  name : String
  parent : Option Nat
  data : VData
deriving Repr, DecidableEq

/-- The heap of node records; a node id is an index into `nodes`. -/
structure VFS where
  nodes : List VNode
deriving Repr, DecidableEq

abbrev NodeId := Nat

namespace VFS

def get? (s : VFS) (i : NodeId) : Option VNode := s.nodes.get? i

def size (s : VFS) : Nat := s.nodes.length

/-- Overwrite the record at an existing id (used when a directory's
dictionary is mutated; Python mutates the object in place). -/
def setNode (s : VFS) (i : NodeId) (n : VNode) : VFS := ⟨s.nodes.set i n⟩

/-- Allocate a fresh node (Python object creation); returns the new heap
and the fresh id. -/
def alloc (s : VFS) (n : VNode) : VFS × NodeId := (⟨s.nodes ++ [n]⟩, s.nodes.length)

end VFS

/-- `d[name]` lookup in a Python dict embedded as an association list. -/
def lookupChild : List (String × Nat) → String → Option Nat
  | [], _ => none
  | (k, v) :: rest, n => if k = n then some v else lookupChild rest n

/-- `d[name] = v` on a Python dict: overwriting keeps the key's position,
a new key is appended. -/
def setChild : List (String × Nat) → String → Nat → List (String × Nat)
  | [], n, i => [(n, i)]
  | (k, v) :: rest, n, i => if k = n then (n, i) :: rest else (k, v) :: setChild rest n i

/-- `node.parent` read. -/
def parentOf (s : VFS) (i : NodeId) : Option Nat :=
  match s.get? i with
  | some n => n.parent
  | none => none

/-- `isinstance(node, VDir)`. -/
def isDirAt (s : VFS) (i : NodeId) : Prop :=
  match s.get? i with
  | some ⟨_, _, .dir _⟩ => True
  | _ => False

/-- `isinstance(node, VFile)`. -/
def isFileAt (s : VFS) (i : NodeId) : Prop :=
  match s.get? i with
  | some ⟨_, _, .file _⟩ => True
  | _ => False

instance (s : VFS) (i : NodeId) : Decidable (isDirAt s i) := by
  unfold isDirAt
  rcases s.get? i with _ | ⟨_, _, _ | _⟩ <;> simp <;> infer_instance

instance (s : VFS) (i : NodeId) : Decidable (isFileAt s i) := by
  unfold isFileAt
  rcases s.get? i with _ | ⟨_, _, _ | _⟩ <;> simp <;> infer_instance

/-- The children dictionary of a directory node (empty for files and
dangling ids; only used under a directory hypothesis). -/
def dirChildren (s : VFS) (i : NodeId) : List (String × Nat) :=
  match s.get? i with
  | some ⟨_, _, .dir cs⟩ => cs
  | _ => []

/-- `VDir.get` (source lines 46-47): `children.get(name)`. -/
def dirGet (s : VFS) (d : NodeId) (name : String) : Option Nat :=
  lookupChild (dirChildren s d) name

/-- `VFile.content` read. -/
def contentAt (s : VFS) (i : NodeId) : Option (List Nat) :=
  match s.get? i with
  | some ⟨_, _, .file c⟩ => some c
  | _ => none

/-- `node.name` read. -/
def nameAt (s : VFS) (i : NodeId) : Option String :=
  match s.get? i with
  | some n => some n.name
  | none => none

/-! ### String helpers

Python string primitives used by the source (`split("/")`,
`startswith("/")`, `rstrip("/")`, `"/".join`, `str.lower`) are embedded at
the character-list level so that they can be reasoned about by list
induction. -/

/-- `str.split("/")` on a character list: split at every `'/'`, keeping
empty pieces (Python keeps them; the source filters them out later). -/
def splitChars : List Char → List (List Char)
  | [] => [[]]
  | c :: rest =>
    if c = '/' then [] :: splitChars rest
    else
      match splitChars rest with
      | [] => [[c]]
      | p :: ps => (c :: p) :: ps

/-- `[p for p in path.split("/") if p]`: split on `/` and drop empties. -/
def splitSlash (p : String) : List String :=
  ((splitChars p.toList).filter (· ≠ [])).map (fun l => String.mk l)

/-- `path.startswith("/")`. -/
def startsWithSlash (p : String) : Bool :=
  match p.toList with
  | '/' :: _ => true
  | _ => false

/-- `path.rstrip("/")`: drop all trailing slashes. -/
def rstripSlash (p : String) : String :=
  String.mk ((p.toList.reverse.dropWhile (· = '/')).reverse)

/-- Characters of `"/".join(parts)`. -/
def joinSlash : List String → List Char
  | [] => []
  | [p] => p.toList
  | p :: rest => p.toList ++ '/' :: joinSlash rest

/-! ### Sorting children

Python's `sorted` is stable.  The source sorts children three ways:
  * `_walk_vfs`: `sorted(keys, key=str.lower, reverse=True)` and pushes
    onto a stack, so the pop order is ascending with ties in reverse
    insertion order;
  * `_copy_recursive` / `list_names`: `sorted(..., key=...lower())`,
    ascending and stable.
`List.insertionSort` is stable, so it models Python's `sorted` for both
directions (for `reverse=True`, ties keep insertion order, exactly as
`sorted` does). -/

/-- Ascending stable order on children by lower-cased name
(`sorted(src.children.items(), key=lambda kv: kv[0].lower())`). -/
def childLe (a b : String × Nat) : Prop := a.1.toLower ≤ b.1.toLower

/-- Descending stable order on children by lower-cased name
(`sorted(keys, key=str.lower, reverse=True)`). -/
def childGe (a b : String × Nat) : Prop := b.1.toLower ≤ a.1.toLower

instance : DecidableRel childLe := fun a b => by unfold childLe; infer_instance
instance : DecidableRel childGe := fun a b => by unfold childGe; infer_instance

instance : IsTotal (String × Nat) childLe :=
  ⟨fun a b => le_total a.1.toLower b.1.toLower⟩
instance : IsTrans (String × Nat) childLe :=
  ⟨fun _ _ _ hab hbc => le_trans hab hbc⟩
instance : IsTotal (String × Nat) childGe :=
  ⟨fun a b => le_total b.1.toLower a.1.toLower⟩
instance : IsTrans (String × Nat) childGe :=
  ⟨fun _ _ _ hab hbc => le_trans hbc hab⟩

/-- Children in the ascending sorted order used by `_copy_recursive`. -/
def sortedChildren (cs : List (String × Nat)) : List (String × Nat) :=
  List.insertionSort childLe cs

/-- Children in the descending push order used by `_walk_vfs`. -/
def walkPushOrder (cs : List (String × Nat)) : List (String × Nat) :=
  List.insertionSort childGe cs

/-! ### Core operations -/

/-- `VDir.add_dir` (source lines 49-57).  Returns the possibly-updated
heap together with the resulting directory id or the raised error; on
error the heap is returned unchanged because the `raise` precedes every
mutation in the source. -/
def addDir (s : VFS) (d : NodeId) (name : String) : VFS × Except Err NodeId :=
  match s.get? d with
  | some ⟨dn, dp, .dir cs⟩ =>
    match lookupChild cs name with
    | some c =>
      match s.get? c with
      | some ⟨_, _, .dir _⟩ => (s, .ok c)
      | some ⟨_, _, .file _⟩ => (s, .error .typeConflict)
      | none => (s, .error .badState)
    | none =>
      let (s1, nid) := s.alloc ⟨name, some d, .dir []⟩
      (s1.setNode d ⟨dn, dp, .dir (setChild cs name nid)⟩, .ok nid)
  | _ => (s, .error .badState)

/-- `VDir.add_file` (source lines 59-64).  Note the source constructs a
fresh `VFile` even when overwriting an existing file of the same name. -/
def addFile (s : VFS) (d : NodeId) (name : String) (content : List Nat) :
    VFS × Except Err NodeId :=
  match s.get? d with
  | some ⟨dn, dp, .dir cs⟩ =>
    match lookupChild cs name with
    | some c =>
      match s.get? c with
      | some ⟨_, _, .file _⟩ =>
        let (s1, nid) := s.alloc ⟨name, some d, .file content⟩
        (s1.setNode d ⟨dn, dp, .dir (setChild cs name nid)⟩, .ok nid)
      | some ⟨_, _, .dir _⟩ => (s, .error .typeConflict)
      | none => (s, .error .badState)
    | none =>
      let (s1, nid) := s.alloc ⟨name, some d, .file content⟩
      (s1.setNode d ⟨dn, dp, .dir (setChild cs name nid)⟩, .ok nid)
  | _ => (s, .error .badState)

/-- The component loop of `_resolve_in_vfs` (source lines 182-197).  The
heap is threaded through the loop so that read-only-ness is a theorem
rather than a typing accident. -/
def resolveLoop (s : VFS) (root : NodeId) : NodeId → List String → VFS × Except Err NodeId
  | cur, [] => (s, .ok cur)
  | cur, part :: rest =>
    if part = "." then resolveLoop s root cur rest
    else if part = ".." then
      match s.get? cur with
      | none => (s, .error .badState)
      | some n =>
        match n.parent with
        | none => resolveLoop s root root rest
        | some p => resolveLoop s root p rest
    else
      match s.get? cur with
      | some ⟨_, _, .dir cs⟩ =>
        (match lookupChild cs part with
         | none => (s, .error .notFound)
         | some nxt => resolveLoop s root nxt rest)
      | some ⟨_, _, .file _⟩ => (s, .error .notADirectory)
      | none => (s, .error .badState)

/-- `_resolve_in_vfs` (source lines 164-199). -/
def resolveInVfs (s : VFS) (start root : NodeId) (p : Option String) :
    VFS × Except Err NodeId :=
  match p with
  | none => (s, .ok start)
  | some str =>
    if str = "." then (s, .ok start)
    else
      let cur := if startsWithSlash str then root else start
      resolveLoop s root cur (splitSlash str)

/-- The intermediate-component loop of `_resolve_parent_for_creation`
(source lines 246-262): like `resolveLoop` but every named component must
resolve to a directory. -/
def rpfcLoop (s : VFS) (root : NodeId) : NodeId → List String → VFS × Except Err NodeId
  | cur, [] => (s, .ok cur)
  | cur, part :: rest =>
    if part = "." then rpfcLoop s root cur rest
    else if part = ".." then
      match s.get? cur with
      | none => (s, .error .badState)
      | some n =>
        match n.parent with
        | none => rpfcLoop s root root rest
        | some p => rpfcLoop s root p rest
    else
      match s.get? cur with
      | some ⟨_, _, .dir cs⟩ =>
        (match lookupChild cs part with
         | none => (s, .error .notFound)
         | some nxt =>
           match s.get? nxt with
           | some ⟨_, _, .dir _⟩ => rpfcLoop s root nxt rest
           | some ⟨_, _, .file _⟩ => (s, .error .notADirectory)
           | none => (s, .error .badState))
      | some ⟨_, _, .file _⟩ => (s, .error .notADirectory)
      | none => (s, .error .badState)

/-- The Python local `path_str` after the trailing-slash cleanup at the
top of `_resolve_parent_for_creation` (source lines 224-226). -/
def rpfcStripped (p : String) : String :=
  if p = "/" then p else rstripSlash p

/-- `_resolve_parent_for_creation` (source lines 217-266). -/
def resolveParentForCreation (s : VFS) (start root : NodeId) (p : String) :
    VFS × Except Err (NodeId × String) :=
  if p = "" then (s, .error .invalidPath)
  else if rpfcStripped p = "" ∨ rpfcStripped p = "/" then (s, .error .invalidPath)
  else if splitSlash (rpfcStripped p) = [] then (s, .error .invalidPath)
  else if (splitSlash (rpfcStripped p)).getLast! = "." ∨
          (splitSlash (rpfcStripped p)).getLast! = ".." then (s, .error .invalidPath)
  else
    match rpfcLoop s root
        (if startsWithSlash (rpfcStripped p) then root else start)
        (splitSlash (rpfcStripped p)).dropLast with
    | (s1, .error e) => (s1, .error e)
    | (s1, .ok cur) =>
      match s.get? cur with
      | some ⟨_, _, .dir _⟩ => (s1, .ok (cur, (splitSlash (rpfcStripped p)).getLast!))
      | some ⟨_, _, .file _⟩ => (s1, .error .notADirectory)
      | none => (s1, .error .badState)

/-- The depth guard of `_walk_vfs`:
`(maxdepth is None) or (depth < maxdepth)`. -/
def depthOpen (maxdepth : Option Nat) (depth : Nat) : Bool :=
  match maxdepth with
  | none => true
  | some m => decide (depth < m)

/-- The stack loop of `_walk_vfs` (source lines 202-214).  Python's
`stack.append`/`stack.pop()` work at the list end; here the list head is
the stack top, so appending the descending-sorted children block becomes
prepending its reverse.  The fuel bounds the number of loop iterations;
on a well-formed tree `s.size` iterations per stack entry suffice. -/
def walkLoop (s : VFS) (maxdepth : Option Nat) :
    Nat → List (NodeId × Nat) → List (NodeId × Nat)
  | 0, _ => []
  | _ + 1, [] => []
  | fuel + 1, (i, depth) :: rest =>
    (i, depth) ::
      (match s.get? i with
       | some ⟨_, _, .dir cs⟩ =>
         if depthOpen maxdepth depth then
           walkLoop s maxdepth fuel
             (((walkPushOrder cs).reverse.map (fun e => (e.2, depth + 1))) ++ rest)
         else walkLoop s maxdepth fuel rest
       | _ => walkLoop s maxdepth fuel rest)

/-- `_walk_vfs(start, maxdepth)` run to completion. -/
def walkVfs (s : VFS) (start : NodeId) (maxdepth : Option Nat) (fuel : Nat) :
    List (NodeId × Nat) :=
  walkLoop s maxdepth fuel [(start, 0)]

/-- The child-copying loop of `_copy_recursive` (source lines 288-292),
iterating over a snapshot of the sorted children taken when the loop
starts; each iteration is a nested `_copy_recursive` call, abstracted as
`cr` so that the recursion is structural in the fuel. -/
def copyChildrenF (cr : VFS → NodeId → NodeId → String → VFS × Except Err Unit) :
    VFS → NodeId → List (String × Nat) → VFS × Except Err Unit
  | s, _, [] => (s, .ok ())
  | s, newDir, (childName, child) :: rest =>
    match cr s child newDir childName with
    | (s1, .ok _) => copyChildrenF cr s1 newDir rest
    | (s1, .error e) => (s1, .error e)

/-- `_copy_recursive` (source lines 269-294).  Fuel models the Python
call-stack depth: each nested `_copy_recursive` call consumes one unit,
and exhaustion is Python's `RecursionError`. -/
def copyRecursive : Nat → VFS → NodeId → NodeId → String → VFS × Except Err Unit
  | 0, s, _, _, _ => (s, .error .recursionError)
  | fuel + 1, s, src, dstParent, newName =>
    let existing := dirGet s dstParent newName
    match s.get? src with
    | some ⟨_, _, .file content⟩ =>
      (match addFile s dstParent newName content with
       | (s1, .ok _) => (s1, .ok ())
       | (s1, .error e) => (s1, .error e))
    | some ⟨_, _, .dir _⟩ =>
      if existing.isSome then (s, .error .alreadyExists)
      else
        (match addDir s dstParent newName with
         | (s1, .error e) => (s1, .error e)
         | (s1, .ok newDir) =>
           copyChildrenF (copyRecursive fuel) s1 newDir
             (sortedChildren (dirChildren s1 src)))
    | none => (s, .error .badState)

/-- The child loop at a given fuel, as used by `copyRecursive`. -/
def copyChildren (fuel : Nat) : VFS → NodeId → List (String × Nat) →
    VFS × Except Err Unit :=
  copyChildrenF (copyRecursive fuel)

/-- The `while cur and cur.parent is not None` loop of `VNode.abspath`
(source lines 27-31): collect the names from a node up to (excluding) the
root.  Fuel `i + 1` always suffices because parents have smaller ids. -/
def upNames (s : VFS) : Nat → NodeId → List String
  | 0, _ => []
  | fuel + 1, i =>
    match s.get? i with
    | some n =>
      (match n.parent with
       | none => []
       | some p => n.name :: upNames s fuel p)
    | none => []

/-- `VNode.abspath` (source lines 23-32): the root renders as `/`, any
other node as `/` followed by the parent-chain names joined with `/`. -/
def abspath (s : VFS) (i : NodeId) : String :=
  match s.get? i with
  | some n =>
    (match n.parent with
     | none => "/"
     | some _ => String.mk ('/' :: joinSlash (upNames s (i + 1) i).reverse))
  | none => "/"

/-- The parent chain of a node: the node itself followed by the chain of
its parent.  Fuel `i + 1` suffices on well-formed heaps. -/
def chainList (s : VFS) : Nat → NodeId → List NodeId
  | 0, i => [i]
  | fuel + 1, i =>
    i :: (match parentOf s i with
          | none => []
          | some p => chainList s fuel p)

/-- `a` is an ancestor of `x` or `x` itself (equivalently, `x` lies in
the subtree rooted at `a`), read off the parent back-references. -/
def chainReach (s : VFS) (x a : NodeId) : Prop :=
  a ∈ chainList s (x + 1) x

instance (s : VFS) (x a : NodeId) : Decidable (chainReach s x a) := by
  unfold chainReach; infer_instance

/-- One directory entry is coherent: it points past the owning directory
to an existing node whose back-reference and name agree with the entry. -/
def entryOK (s : VFS) (i : NodeId) (e : String × Nat) : Bool :=
  decide (i < e.2) && decide (e.2 < s.size) &&
    (match s.get? e.2 with
     | some cn => decide (cn.parent = some i) && decide (cn.name = e.1)
     | none => false)

/-- A parentless node is the root, and a parent has a smaller id (nodes
are attached to an already-existing parent and never re-attached). -/
def parentFieldOK (root i : NodeId) : Option Nat → Bool
  | none => decide (i = root)
  | some p => decide (p < i)

/-- Per-node well-formedness conditions. -/
def nodeOK (s : VFS) (root : NodeId) (i : NodeId) : Bool :=
  match s.get? i with
  | none => true
  | some n =>
    parentFieldOK root i n.parent &&
    (match n.data with
     | .file _ => true
     | .dir cs => decide (cs.map Prod.fst).Nodup && cs.all (entryOK s i))

/-- Well-formedness of the whole heap: the root exists, is parentless and
is a directory, and every node satisfies `nodeOK`. -/
def WF (s : VFS) (root : NodeId) : Prop :=
  root < s.size ∧ parentOf s root = none ∧ isDirAt s root ∧
    ∀ i, i < s.size → nodeOK s root i = true

instance (s : VFS) (root : NodeId) : Decidable (WF s root) := by
  unfold WF; infer_instance

/-- Modelled from the spec (§4.4): depth-first pre-order traversal
yielding `(node, depth)` pairs, children in case-insensitive
lexicographic order, a directory's children visited only while its own
depth is strictly below the ceiling.  The child visit order
`(walkPushOrder cs).reverse` is ascending by lower-cased name, hence
case-insensitive lexicographic.  This is the specification-side
description that the stack machine `walkLoop` is proved to refine. -/
def preWalk (s : VFS) (maxdepth : Option Nat) :
    Nat → NodeId → Nat → List (NodeId × Nat)
  | 0, i, depth => [(i, depth)]
  | fuel + 1, i, depth =>
    (i, depth) ::
      (match s.get? i with
       | some ⟨_, _, .dir cs⟩ =>
         if depthOpen maxdepth depth then
           ((walkPushOrder cs).reverse).flatMap
             (fun e => preWalk s maxdepth fuel e.2 (depth + 1))
         else []
       | _ => [])

/-- `preWalk` at the canonical fuel `s.size`, as a function of one stack
entry; on well-formed heaps the fuel is irrelevant beyond this bound. -/
def preOne (s : VFS) (maxdepth : Option Nat) (e : NodeId × Nat) : List (NodeId × Nat) :=
  preWalk s maxdepth s.size e.1 e.2

/-- A pure rose tree: the observable shape and contents of a subtree.
The node's own name is carried by its parent's entry, so the tree is the
shape *below* a node — exactly what a copy reproduces under a new name.
Directory children are listed in the canonical ascending sorted order. -/
inductive PT where
  | f (content : List Nat)
  | d (children : List (String × PT))
deriving Repr

/-- Extract the pure subtree below a node (children in sorted order).
Fuel `s.size` suffices on well-formed heaps. -/
def extract (s : VFS) : Nat → NodeId → Option PT
  | 0, _ => none
  | fuel + 1, i =>
    match s.get? i with
    | some ⟨_, _, .file c⟩ => some (.f c)
    | some ⟨_, _, .dir cs⟩ =>
      ((sortedChildren cs).mapM
        (fun e => (extract s fuel e.2).map (fun t => (e.1, t)))).map .d
    | none => none

/-- A usable path component: non-empty, contains no `/`, and is not one
of the special components `.` and `..`.  Nodes whose name violates this
cannot be addressed by a path string. -/
def validNameB (nm : String) : Bool :=
  decide (nm.toList ≠ []) && decide ('/' ∉ nm.toList) &&
    decide (nm ≠ ".") && decide (nm ≠ "..")

/-- `x` is reachable from the root along registered parent links bearing
valid component names: walking `x`'s parent chain, every non-root node is
recorded in its parent's dictionary under its own (valid) name, and the
chain ends at a parentless node.  Fuel `x + 1` suffices on well-formed
heaps because parent ids strictly decrease. -/
def goodPath (s : VFS) : Nat → NodeId → Bool
  | 0, _ => false
  | fuel + 1, i =>
    match s.get? i with
    | none => false
    | some n =>
      match n.parent with
      | none => true
      | some p =>
        decide (dirGet s p n.name = some i) && validNameB n.name && goodPath s fuel p

/-- Downward reachability from the root along children dictionaries:
the nodes a client can actually obtain from the tree API. -/
inductive ReachDown (s : VFS) (root : NodeId) : NodeId → Prop where
  | refl : ReachDown s root root
  | child {d : NodeId} {e : String × Nat} :
      ReachDown s root d → e ∈ dirChildren s d → ReachDown s root e.2

/-- The per-call contract of `copyRecursive`, relative to a root and a
bound `B` enclosing the source subtree: well-formedness is preserved, old
nodes other than the destination parent are untouched, parent links of
old nodes are untouched, every error leaves the heap unchanged and is a
collision error, a free destination name guarantees success, success
registers a fresh node under the destination name whose extracted
subtree equals the source's, and parent chains of fresh nodes run into
the destination parent's old chain.  Stated as a definition so that the
fuel induction can be shared between `copyRecursive` and its child loop. -/
def copyRecSpec (root B : NodeId) (fuel : Nat) : Prop :=
  ∀ s src dstP name s' r,
    WF s root →
    src < B →
    B ≤ s.size →
    (∀ j, j < s.size → src ∈ chainList s (j + 1) j → j < B) →
    dstP < s.size →
    isDirAt s dstP →
    src ∉ chainList s (dstP + 1) dstP →
    B ≤ src + fuel →
    copyRecursive fuel s src dstP name = (s', r) →
      WF s' root ∧
      s.size ≤ s'.size ∧
      (∀ j, j < s.size → j ≠ dstP → s'.get? j = s.get? j) ∧
      (∀ j, j < s.size → parentOf s' j = parentOf s j) ∧
      (∀ e, r = Except.error e →
        s' = s ∧ (e = Err.typeConflict ∨ e = Err.alreadyExists)) ∧
      (dirGet s dstP name = none → r = Except.ok ()) ∧
      (r = Except.ok () →
        (∀ dn dp cs, s.get? dstP = some ⟨dn, dp, VData.dir cs⟩ →
          s'.get? dstP = some ⟨dn, dp, VData.dir (setChild cs name s.size)⟩) ∧
        parentOf s' s.size = some dstP ∧
        (∀ F, extract s' F s.size = extract s F src)) ∧
      (∀ j, s.size ≤ j → j < s'.size →
        ∀ f a, a ∈ chainList s' f j → s.size ≤ a ∨ a ∈ chainList s (dstP + 1) dstP)

/-- The corresponding contract of the child-copying loop `copyChildren`:
under the loop invariant (all pending sources live below `B` with their
subtrees, none contains the fresh destination directory, their names are
distinct and still absent from the destination), the loop succeeds,
preserves well-formedness, touches no old node except the destination
directory, and appends to the destination exactly one child per item
whose extracted subtree equals the corresponding source's. -/
def copyChildSpec (root B : NodeId) (fuel : Nat) : Prop :=
  ∀ s1 newDir items s2 r,
    WF s1 root →
    B ≤ newDir →
    newDir < s1.size →
    isDirAt s1 newDir →
    (∀ e, e ∈ items → e.2 < B ∧
      (∀ j, j < s1.size → e.2 ∈ chainList s1 (j + 1) j → j < B) ∧
      e.2 ∉ chainList s1 (newDir + 1) newDir ∧
      B ≤ e.2 + fuel ∧
      lookupChild (dirChildren s1 newDir) e.1 = none) →
    (items.map Prod.fst).Nodup →
    copyChildren fuel s1 newDir items = (s2, r) →
      WF s2 root ∧
      s1.size ≤ s2.size ∧
      (∀ j, j < s1.size → j ≠ newDir → s2.get? j = s1.get? j) ∧
      (∀ j, j < s1.size → parentOf s2 j = parentOf s1 j) ∧
      r = Except.ok () ∧
      (∀ nm pp cs0, s1.get? newDir = some ⟨nm, pp, VData.dir cs0⟩ →
        ∃ news, s2.get? newDir = some ⟨nm, pp, VData.dir (cs0 ++ news)⟩ ∧
          List.Forall₂
            (fun it en => en.1 = it.1 ∧ ∀ F, extract s2 F en.2 = extract s1 F it.2)
            items news) ∧
      (∀ j, s1.size ≤ j → j < s2.size →
        ∀ f a, a ∈ chainList s2 f j → s1.size ≤ a ∨ a ∈ chainList s1 (newDir + 1) newDir)

/-- Decidable equality for `Except` results, so that witnesses can be
checked by `decide`. -/
instance {ε α : Type} [DecidableEq ε] [DecidableEq α] : DecidableEq (Except ε α) :=
  fun x y =>
    match x, y with
    | .ok a, .ok b =>
      if h : a = b then isTrue (by rw [h])
      else isFalse (fun hc => h (Except.ok.inj hc))
    | .error a, .error b =>
      if h : a = b then isTrue (by rw [h])
      else isFalse (fun hc => h (Except.error.inj hc))
    | .ok _, .error _ => isFalse (fun hc => Except.noConfusion hc)
    | .error _, .ok _ => isFalse (fun hc => Except.noConfusion hc)

/-! ### Example heaps used by witnesses and counterexamples -/

/-- A bare root directory. -/
def vfs0 : VFS := ⟨[⟨"/", none, .dir []⟩]⟩

/-- Root directory containing one file `n` with content `[1]`
(the result of `addFile vfs0 0 "n" [1]`). -/
def vfs1 : VFS := ⟨[⟨"/", none, .dir [("n", 1)]⟩, ⟨"n", some 0, .file [1]⟩]⟩

/-- Root directory containing one empty subdirectory `a`
(the result of `addDir vfs0 0 "a"`). -/
def vfsA : VFS := ⟨[⟨"/", none, .dir [("a", 1)]⟩, ⟨"a", some 0, .dir []⟩]⟩

/-- Root containing a directory `a` (id 1) and a file `f` (id 2). -/
def vfsAF : VFS :=
  ⟨[⟨"/", none, .dir [("a", 1), ("f", 2)]⟩, ⟨"a", some 0, .dir []⟩,
    ⟨"f", some 0, .file [7]⟩]⟩

/-- Root containing a directory `a` (id 1) holding a file `x` (id 2)
with content `[3]`. -/
def vfsDeep : VFS :=
  ⟨[⟨"/", none, .dir [("a", 1)]⟩, ⟨"a", some 0, .dir [("x", 2)]⟩,
    ⟨"x", some 1, .file [3]⟩]⟩

/-- Root containing a directory `a` (id 1) holding a directory `c`
(id 2): a nested destination for the self-copy counterexample. -/
def vfsNest : VFS :=
  ⟨[⟨"/", none, .dir [("a", 1)]⟩, ⟨"a", some 0, .dir [("c", 2)]⟩,
    ⟨"c", some 1, .dir []⟩]⟩

/-! ### Association-list lemmas -/

theorem lookupChild_setChild_self (cs : List (String × Nat)) (n : String) (i : Nat) :
    lookupChild (setChild cs n i) n = some i := by
  induction cs with
  | nil => simp [setChild, lookupChild]
  | cons e rest ih =>
    by_cases h : e.1 = n
    · simp [setChild, h, lookupChild]
    · simpa [setChild, h, lookupChild] using ih

theorem lookupChild_setChild_other (cs : List (String × Nat)) (n m : String) (i : Nat)
    (h : m ≠ n) : lookupChild (setChild cs n i) m = lookupChild cs m := by
  induction cs with
  | nil => simp [setChild, lookupChild, Ne.symm h]
  | cons e rest ih =>
    obtain ⟨k, v⟩ := e
    by_cases he : k = n
    · subst he
      simp only [setChild, if_pos rfl, lookupChild]
      rw [if_neg (Ne.symm h), if_neg (Ne.symm h)]
    · simp only [setChild, if_neg he, lookupChild]
      by_cases hm : k = m
      · rw [if_pos hm, if_pos hm]
      · rw [if_neg hm, if_neg hm, ih]

theorem keys_setChild_mem (cs : List (String × Nat)) (n : String) (i : Nat)
    (h : lookupChild cs n ≠ none) :
    (setChild cs n i).map Prod.fst = cs.map Prod.fst := by
  induction cs with
  | nil => simp [lookupChild] at h
  | cons e rest ih =>
    by_cases he : e.1 = n
    · simp [setChild, he]
    · simp only [lookupChild, if_neg he] at h
      simp [setChild, he, ih h]

theorem keys_setChild_new (cs : List (String × Nat)) (n : String) (i : Nat)
    (h : lookupChild cs n = none) :
    (setChild cs n i).map Prod.fst = cs.map Prod.fst ++ [n] := by
  induction cs with
  | nil => simp [setChild]
  | cons e rest ih =>
    by_cases he : e.1 = n
    · simp [lookupChild, he] at h
    · simp only [lookupChild, if_neg he] at h
      simp [setChild, he, ih h]

theorem lookupChild_eq_none_iff (cs : List (String × Nat)) (n : String) :
    lookupChild cs n = none ↔ n ∉ cs.map Prod.fst := by
  induction cs with
  | nil => simp [lookupChild]
  | cons e rest ih =>
    obtain ⟨k, v⟩ := e
    by_cases he : k = n
    · simp [lookupChild, he]
    · simp [lookupChild, he, ih, Ne.symm he]

theorem lookupChild_mem (cs : List (String × Nat)) (n : String) (i : Nat)
    (h : lookupChild cs n = some i) : (n, i) ∈ cs := by
  induction cs with
  | nil => simp [lookupChild] at h
  | cons e rest ih =>
    obtain ⟨k, v⟩ := e
    by_cases he : k = n
    · simp only [lookupChild, if_pos he] at h
      obtain rfl : v = i := by injection h
      subst he
      exact List.mem_cons_self _ _
    · simp only [lookupChild, if_neg he] at h
      exact List.mem_cons_of_mem _ (ih h)

theorem mem_lookupChild (cs : List (String × Nat)) (n : String) (i : Nat)
    (hnd : (cs.map Prod.fst).Nodup) (h : (n, i) ∈ cs) : lookupChild cs n = some i := by
  induction cs with
  | nil => simp at h
  | cons e rest ih =>
    obtain ⟨k, v⟩ := e
    simp only [List.map_cons, List.nodup_cons] at hnd
    rcases List.mem_cons.1 h with h1 | h1
    · injection h1 with h2 h3
      subst h2
      subst h3
      simp [lookupChild]
    · by_cases he : k = n
      · exfalso
        apply hnd.1
        subst he
        exact List.mem_map_of_mem Prod.fst h1
      · simp only [lookupChild, if_neg he]
        exact ih hnd.2 h1

/-! ### Heap lemmas -/

theorem VFS.get?_lt_size {s : VFS} {i : NodeId} {n : VNode} (h : s.get? i = some n) :
    i < s.size := by
  by_contra hc
  rw [VFS.get?, List.get?_len_le (Nat.le_of_not_lt hc)] at h
  exact Option.noConfusion h

theorem VFS.size_setNode (s : VFS) (i : NodeId) (n : VNode) :
    (s.setNode i n).size = s.size :=
  List.length_set ..

theorem VFS.size_allocFst (s : VFS) (n : VNode) :
    (s.alloc n).1.size = s.size + 1 := by
  simp [VFS.alloc, VFS.size]

theorem VFS.allocSnd (s : VFS) (n : VNode) : (s.alloc n).2 = s.size := rfl

theorem VFS.get?_setNode_self {s : VFS} {i : NodeId} (n : VNode) (h : i < s.size) :
    (s.setNode i n).get? i = some n :=
  List.get?_set_eq_of_lt _ h

theorem VFS.get?_setNode_other (s : VFS) {i j : NodeId} (n : VNode) (h : i ≠ j) :
    (s.setNode i n).get? j = s.get? j :=
  List.get?_set_ne _ _ h

theorem VFS.get?_alloc_old (s : VFS) {j : NodeId} (n : VNode) (h : j < s.size) :
    (s.alloc n).1.get? j = s.get? j :=
  List.get?_append h

theorem VFS.get?_alloc_new (s : VFS) (n : VNode) :
    (s.alloc n).1.get? s.size = some n :=
  List.get?_concat_length ..

/-! ### Well-formedness accessors -/

theorem WF.size_pos {s : VFS} {root : NodeId} (h : WF s root) : root < s.size := h.1

theorem WF.nodeOK_at {s : VFS} {root : NodeId} (h : WF s root) {i : NodeId} {n : VNode}
    (hg : s.get? i = some n) : nodeOK s root i = true :=
  h.2.2.2 i (VFS.get?_lt_size hg)

theorem WF.parent_lt {s : VFS} {root : NodeId} (h : WF s root) {i : NodeId} {n : VNode}
    (hg : s.get? i = some n) {p : Nat} (hp : n.parent = some p) : p < i := by
  have hok := h.nodeOK_at hg
  rw [nodeOK, hg] at hok
  simp only [Bool.and_eq_true] at hok
  have h1 := hok.1
  rw [hp] at h1
  simpa [parentFieldOK] using h1

theorem WF.parent_none_root {s : VFS} {root : NodeId} (h : WF s root) {i : NodeId} {n : VNode}
    (hg : s.get? i = some n) (hp : n.parent = none) : i = root := by
  have hok := h.nodeOK_at hg
  rw [nodeOK, hg] at hok
  simp only [Bool.and_eq_true] at hok
  have h1 := hok.1
  rw [hp] at h1
  simpa [parentFieldOK] using h1

theorem WF.keys_nodup {s : VFS} {root : NodeId} (h : WF s root) {i : NodeId}
    {nm : String} {pr : Option Nat} {cs : List (String × Nat)}
    (hg : s.get? i = some ⟨nm, pr, .dir cs⟩) : (cs.map Prod.fst).Nodup := by
  have hok := h.nodeOK_at hg
  rw [nodeOK, hg] at hok
  simp only [Bool.and_eq_true, decide_eq_true_eq] at hok
  exact hok.2.1

theorem WF.entry_spec {s : VFS} {root : NodeId} (h : WF s root) {i : NodeId}
    {nm : String} {pr : Option Nat} {cs : List (String × Nat)}
    (hg : s.get? i = some ⟨nm, pr, .dir cs⟩) {e : String × Nat} (he : e ∈ cs) :
    i < e.2 ∧ e.2 < s.size ∧
      ∃ cn, s.get? e.2 = some cn ∧ cn.parent = some i ∧ cn.name = e.1 := by
  have hok := h.nodeOK_at hg
  rw [nodeOK, hg] at hok
  simp only [Bool.and_eq_true, decide_eq_true_eq, List.all_eq_true] at hok
  have h4 := hok.2.2 e he
  rw [entryOK] at h4
  simp only [Bool.and_eq_true, decide_eq_true_eq] at h4
  refine ⟨h4.1.1, h4.1.2, ?_⟩
  rcases hc : s.get? e.2 with _ | cn <;> rw [hc] at h4
  · exact absurd h4.2 (by simp)
  · simp only [Bool.and_eq_true, decide_eq_true_eq] at h4
    exact ⟨cn, rfl, h4.2.1, h4.2.2⟩

theorem WF.root_dir {s : VFS} {root : NodeId} (h : WF s root) :
    ∃ nm cs, s.get? root = some ⟨nm, none, .dir cs⟩ := by
  obtain ⟨hlt, hpar, hdir, _⟩ := h
  rw [isDirAt] at hdir
  rw [parentOf] at hpar
  rcases hg : s.get? root with _ | ⟨nm, pr, cs | c⟩ <;> rw [hg] at hdir hpar
  · exact absurd hdir not_false
  · simp only at hpar
    subst hpar
    exact ⟨nm, cs, rfl⟩
  · exact absurd hdir not_false

/-! ### Read-only operations (C10 support) -/

theorem resolveLoop_fst (s : VFS) (root : NodeId) (cur : NodeId) (parts : List String) :
    (resolveLoop s root cur parts).1 = s := by
  induction parts generalizing cur with
  | nil => rfl
  | cons part rest ih =>
    rw [resolveLoop]
    repeat' split
    all_goals first | rfl | exact ih _

theorem resolveInVfs_fst (s : VFS) (start root : NodeId) (p : Option String) :
    (resolveInVfs s start root p).1 = s := by
  rcases p with _ | str
  · rfl
  · rw [resolveInVfs]
    by_cases h : str = "."
    · rw [if_pos h]
    · rw [if_neg h]
      exact resolveLoop_fst ..

theorem rpfcLoop_fst (s : VFS) (root : NodeId) (cur : NodeId) (parts : List String) :
    (rpfcLoop s root cur parts).1 = s := by
  induction parts generalizing cur with
  | nil => rfl
  | cons part rest ih =>
    rw [rpfcLoop]
    repeat' split
    all_goals first | rfl | exact ih _

theorem resolveParentForCreation_fst (s : VFS) (start root : NodeId) (p : String) :
    (resolveParentForCreation s start root p).1 = s := by
  rw [resolveParentForCreation]
  split
  · rfl
  · split
    · rfl
    · split
      · rfl
      · split
        · rfl
        · rcases hLoop : rpfcLoop s root
              (if startsWithSlash (rpfcStripped p) then root else start)
              (splitSlash (rpfcStripped p)).dropLast with ⟨s1, r⟩
          have hs1 : s1 = s := by
            have h3 := congrArg Prod.fst hLoop
            rw [rpfcLoop_fst] at h3
            exact h3.symm
          rcases r with e | cur
          · exact hs1
          · dsimp only
            rcases s.get? cur with _ | ⟨nm, pr, cs | c⟩ <;> exact hs1

/-! ### `add_dir` and `add_file` characterizations -/

theorem addDir_existing_dir {s : VFS} {d : NodeId} {n : String}
    {dn : String} {dp : Option Nat} {cs : List (String × Nat)}
    (hd : s.get? d = some ⟨dn, dp, .dir cs⟩) {c : Nat}
    (hlk : lookupChild cs n = some c)
    {cnm : String} {cp : Option Nat} {ccs : List (String × Nat)}
    (hc : s.get? c = some ⟨cnm, cp, .dir ccs⟩) :
    addDir s d n = (s, .ok c) := by
  simp only [addDir, hd, hlk, hc]

theorem addDir_existing_file {s : VFS} {d : NodeId} {n : String}
    {dn : String} {dp : Option Nat} {cs : List (String × Nat)}
    (hd : s.get? d = some ⟨dn, dp, .dir cs⟩) {c : Nat}
    (hlk : lookupChild cs n = some c)
    {cnm : String} {cp : Option Nat} {cc : List Nat}
    (hc : s.get? c = some ⟨cnm, cp, .file cc⟩) :
    addDir s d n = (s, .error .typeConflict) := by
  simp only [addDir, hd, hlk, hc]

theorem addDir_new {s : VFS} {d : NodeId} {n : String}
    {dn : String} {dp : Option Nat} {cs : List (String × Nat)}
    (hd : s.get? d = some ⟨dn, dp, .dir cs⟩)
    (hlk : lookupChild cs n = none) :
    addDir s d n =
      ((s.alloc ⟨n, some d, .dir []⟩).1.setNode d
        ⟨dn, dp, .dir (setChild cs n s.size)⟩, .ok s.size) := by
  simp only [addDir, hd, hlk]
  rfl

theorem addFile_existing_file {s : VFS} {d : NodeId} {n : String} {content : List Nat}
    {dn : String} {dp : Option Nat} {cs : List (String × Nat)}
    (hd : s.get? d = some ⟨dn, dp, .dir cs⟩) {c : Nat}
    (hlk : lookupChild cs n = some c)
    {cnm : String} {cp : Option Nat} {cc : List Nat}
    (hc : s.get? c = some ⟨cnm, cp, .file cc⟩) :
    addFile s d n content =
      ((s.alloc ⟨n, some d, .file content⟩).1.setNode d
        ⟨dn, dp, .dir (setChild cs n s.size)⟩, .ok s.size) := by
  simp only [addFile, hd, hlk, hc]
  rfl

theorem addFile_existing_dir {s : VFS} {d : NodeId} {n : String} {content : List Nat}
    {dn : String} {dp : Option Nat} {cs : List (String × Nat)}
    (hd : s.get? d = some ⟨dn, dp, .dir cs⟩) {c : Nat}
    (hlk : lookupChild cs n = some c)
    {cnm : String} {cp : Option Nat} {ccs : List (String × Nat)}
    (hc : s.get? c = some ⟨cnm, cp, .dir ccs⟩) :
    addFile s d n content = (s, .error .typeConflict) := by
  simp only [addFile, hd, hlk, hc]

theorem addFile_new {s : VFS} {d : NodeId} {n : String} {content : List Nat}
    {dn : String} {dp : Option Nat} {cs : List (String × Nat)}
    (hd : s.get? d = some ⟨dn, dp, .dir cs⟩)
    (hlk : lookupChild cs n = none) :
    addFile s d n content =
      ((s.alloc ⟨n, some d, .file content⟩).1.setNode d
        ⟨dn, dp, .dir (setChild cs n s.size)⟩, .ok s.size) := by
  simp only [addFile, hd, hlk]
  rfl

/-- After a successful `addDir`/`addFile`-style update, read back the
directory record. -/
theorem get?_after_update {s : VFS} {d : NodeId} (x : VNode) (rec : VNode)
    (hd : d < s.size) :
    ((s.alloc x).1.setNode d rec).get? d = some rec := by
  apply VFS.get?_setNode_self
  rw [VFS.size_allocFst]
  exact Nat.lt_succ_of_lt hd

/-- The freshly allocated node survives the parent-record update. -/
theorem get?_fresh_after_update {s : VFS} {d : NodeId} (x : VNode) (rec : VNode)
    (hd : d < s.size) :
    ((s.alloc x).1.setNode d rec).get? s.size = some x := by
  rw [VFS.get?_setNode_other _ _ (Nat.ne_of_lt hd), VFS.get?_alloc_new]

/-- Old nodes other than the updated directory are untouched. -/
theorem get?_old_after_update {s : VFS} {d : NodeId} (x : VNode) (rec : VNode)
    {j : NodeId} (hj : j < s.size) (hjd : j ≠ d) :
    ((s.alloc x).1.setNode d rec).get? j = s.get? j := by
  rw [VFS.get?_setNode_other _ _ (Ne.symm hjd), VFS.get?_alloc_old _ _ hj]

/-! ### C10 -/

/-- C10: `_resolve_in_vfs` and `_resolve_parent_for_creation` are
read-only — for every heap, start node, root and path, whether they
succeed or fail, the heap component they return is exactly the heap they
were given, so every node's name, parent reference, children mapping and
file content are unchanged by the call. -/
theorem resolve_operations_read_only :
    ∀ (s : VFS) (start root : NodeId) (p : Option String) (q : String),
      (resolveInVfs s start root p).1 = s ∧
      (resolveParentForCreation s start root q).1 = s :=
  fun s start root p q =>
    ⟨resolveInVfs_fst s start root p, resolveParentForCreation_fst s start root q⟩

/-! ### C7 -/

/-- C7: a `..` component encountered at a parentless node is clamped to
the tree root instead of failing, and in particular
`resolve(root, root, "..")` returns the root itself, for any root. -/
theorem resolve_dotdot_clamped (s : VFS) (root : NodeId) (nr : VNode)
    (hg : s.get? root = some nr) (hp : nr.parent = none) :
    (∀ (cur : NodeId) (rest : List String) (n : VNode),
        s.get? cur = some n → n.parent = none →
        resolveLoop s root cur (".." :: rest) = resolveLoop s root root rest) ∧
    (resolveInVfs s root root (some "..")).2 = .ok root := by
  have h1 : ¬(".." : String) = "." := by decide
  constructor
  · intro cur rest n hn hnp
    rw [resolveLoop, if_neg h1, if_pos rfl]
    simp only [hn, hnp]
  · rw [resolveInVfs, if_neg h1, ite_self]
    have hsplit : splitSlash ".." = [".."] := by decide
    rw [hsplit, resolveLoop, if_neg h1, if_pos rfl]
    simp only [hg, hp]
    rfl

/-- C7 witness: the clamped ascent evaluated on a concrete one-node
tree. -/
theorem resolve_dotdot_clamped_witness :
    (resolveInVfs vfs0 0 0 (some "..")).2 = .ok 0 :=
  (resolve_dotdot_clamped vfs0 0 ⟨"/", none, .dir []⟩ rfl rfl).2

/-! ### C5 -/

/-- C5: `add_dir` is idempotent — if a directory named `n` already exists
it is returned unchanged (same heap, same node identity); a second call
after a successful one returns the same directory id with the heap and
`d`'s child count unchanged; and it fails `TypeConflict` when a file
named `n` exists. -/
theorem addDir_idempotent (s : VFS) (d : NodeId) (n : String)
    {dn : String} {dp : Option Nat} {cs : List (String × Nat)}
    (hd : s.get? d = some ⟨dn, dp, .dir cs⟩) :
    (∀ c cnm cp ccs, lookupChild cs n = some c →
        s.get? c = some ⟨cnm, cp, .dir ccs⟩ → addDir s d n = (s, .ok c)) ∧
    (∀ c cnm cp cc, lookupChild cs n = some c →
        s.get? c = some ⟨cnm, cp, .file cc⟩ →
        addDir s d n = (s, .error .typeConflict)) ∧
    (∀ s1 i, addDir s d n = (s1, .ok i) →
        addDir s1 d n = (s1, .ok i) ∧
        (dirChildren (addDir s1 d n).1 d).length = (dirChildren s1 d).length) := by
  refine ⟨fun c cnm cp ccs hlk hc => addDir_existing_dir hd hlk hc,
          fun c cnm cp cc hlk hc => addDir_existing_file hd hlk hc, ?_⟩
  intro s1 i h1
  have hdlt : d < s.size := VFS.get?_lt_size hd
  have key : addDir s1 d n = (s1, .ok i) := by
    rcases hlk : lookupChild cs n with _ | c
    · rw [addDir_new hd hlk, Prod.mk.injEq] at h1
      obtain ⟨hs, hr⟩ := h1
      obtain rfl : i = s.size := (Except.ok.inj hr).symm
      subst hs
      have hd1 : _ = some (⟨dn, dp, .dir (setChild cs n s.size)⟩ : VNode) :=
        get?_after_update (⟨n, some d, .dir []⟩ : VNode)
          (⟨dn, dp, .dir (setChild cs n s.size)⟩ : VNode) hdlt
      have hi1 : _ = some (⟨n, some d, .dir []⟩ : VNode) :=
        get?_fresh_after_update (⟨n, some d, .dir []⟩ : VNode)
          (⟨dn, dp, .dir (setChild cs n s.size)⟩ : VNode) hdlt
      exact addDir_existing_dir hd1 (lookupChild_setChild_self cs n s.size) hi1
    · rcases hc : s.get? c with _ | ⟨cnm, cp, ccs | cc⟩
      · rw [addDir, hd] at h1
        simp only [hlk, hc] at h1
        exact absurd (congrArg Prod.snd h1) (by simp)
      · rw [addDir_existing_dir hd hlk hc, Prod.mk.injEq] at h1
        obtain ⟨hs, hr⟩ := h1
        obtain rfl : i = c := (Except.ok.inj hr).symm
        subst hs
        exact addDir_existing_dir hd hlk hc
      · rw [addDir_existing_file hd hlk hc] at h1
        exact absurd (congrArg Prod.snd h1) (by simp)
  refine ⟨key, ?_⟩
  rw [key]

/-- C5 witness: `add_dir` applied twice on a concrete heap. -/
theorem addDir_idempotent_witness :
    addDir vfsA 0 "a" = (vfsA, .ok 1) ∧
    (dirChildren (addDir vfsA 0 "a").1 0).length = (dirChildren vfsA 0).length := by
  have h := (addDir_idempotent vfs0 0 "a" rfl).2.2 vfsA 1 (by decide)
  exact h

/-! ### C4 -/

/-- C4 counterexample: overwriting a file via `add_file` does not keep
the same node — on a concrete heap, the node id stored under `n` after
the second call differs from the one stored after the first call,
because `add_file` always constructs a fresh `VFile`. -/
theorem addFile_overwrite_not_same_node :
    dirGet (addFile (addFile vfs0 0 "n" [1]).1 0 "n" [2]).1 0 "n" ≠
      dirGet (addFile vfs0 0 "n" [1]).1 0 "n" := by decide

/-- C4 amended: `add_file` on an existing file name succeeds and replaces
the mapping entry with a *fresh* file node (one past the end of the old
heap, hence a different node than after the first call) whose content is
`c2`; the directory's keys are unchanged, so exactly the same names — in
particular a single `n` entry — remain. -/
theorem addFile_overwrite_fresh (s : VFS) (d : NodeId) (n : String) (c1 c2 : List Nat)
    (s1 : VFS) (i1 : NodeId) (h1 : addFile s d n c1 = (s1, .ok i1)) :
    (addFile s1 d n c2).2 = .ok s1.size ∧ s1.size ≠ i1 ∧
    dirGet (addFile s1 d n c2).1 d n = some s1.size ∧
    contentAt (addFile s1 d n c2).1 s1.size = some c2 ∧
    (dirChildren (addFile s1 d n c2).1 d).map Prod.fst =
      (dirChildren s1 d).map Prod.fst ∧
    dirGet s1 d n = some i1 ∧ contentAt s1 i1 = some c1 := by
  rcases hd : s.get? d with _ | ⟨dn, dp, cs | cc⟩
  · rw [addFile, hd] at h1
    exact absurd (congrArg Prod.snd h1) (by simp)
  case some.mk.dir =>
    have hdlt : d < s.size := VFS.get?_lt_size hd
    -- first call allocates `i1 = s.size` whether or not `n` was present
    have hshape : s1 = (s.alloc ⟨n, some d, .file c1⟩).1.setNode d
        ⟨dn, dp, .dir (setChild cs n s.size)⟩ ∧ i1 = s.size := by
      rcases hlk : lookupChild cs n with _ | c
      · rw [addFile_new hd hlk] at h1
        refine ⟨(congrArg Prod.fst h1).symm, ?_⟩
        have h2 := congrArg Prod.snd h1
        simp only at h2
        exact Except.ok.inj h2.symm
      · rcases hc : s.get? c with _ | ⟨cnm, cp, ccs | ccc⟩
        · rw [addFile, hd] at h1
          simp only [hlk, hc] at h1
          exact absurd (congrArg Prod.snd h1) (by simp)
        · rw [addFile_existing_dir hd hlk hc] at h1
          exact absurd (congrArg Prod.snd h1) (by simp)
        · rw [addFile_existing_file hd hlk hc] at h1
          refine ⟨(congrArg Prod.fst h1).symm, ?_⟩
          have h2 := congrArg Prod.snd h1
          simp only at h2
          exact Except.ok.inj h2.symm
    obtain ⟨rfl, rfl⟩ := hshape
    have hd1 : _ = some (⟨dn, dp, .dir (setChild cs n s.size)⟩ : VNode) :=
      get?_after_update (⟨n, some d, .file c1⟩ : VNode)
        (⟨dn, dp, .dir (setChild cs n s.size)⟩ : VNode) hdlt
    have hi1 : _ = some (⟨n, some d, .file c1⟩ : VNode) :=
      get?_fresh_after_update (⟨n, some d, .file c1⟩ : VNode)
        (⟨dn, dp, .dir (setChild cs n s.size)⟩ : VNode) hdlt
    set s1 := (s.alloc ⟨n, some d, .file c1⟩).1.setNode d
        ⟨dn, dp, .dir (setChild cs n s.size)⟩ with hs1def
    have hsz1 : s1.size = s.size + 1 := by
      rw [hs1def, VFS.size_setNode, VFS.size_allocFst]
    have hlk1 : lookupChild (setChild cs n s.size) n = some s.size :=
      lookupChild_setChild_self cs n s.size
    have h2 := @addFile_existing_file _ _ _ c2 _ _ _ hd1 _ hlk1 _ _ _ hi1
    have hd2 : _ = some (⟨dn, dp, .dir (setChild (setChild cs n s.size) n s1.size)⟩ : VNode) :=
      @get?_after_update s1 _ (⟨n, some d, .file c2⟩ : VNode)
        (⟨dn, dp, .dir (setChild (setChild cs n s.size) n s1.size)⟩ : VNode)
        (by rw [hsz1]; exact Nat.lt_succ_of_lt hdlt)
    have hi2 : _ = some (⟨n, some d, .file c2⟩ : VNode) :=
      @get?_fresh_after_update s1 _ (⟨n, some d, .file c2⟩ : VNode)
        (⟨dn, dp, .dir (setChild (setChild cs n s.size) n s1.size)⟩ : VNode)
        (by rw [hsz1]; exact Nat.lt_succ_of_lt hdlt)
    refine ⟨by rw [h2], ?_, ?_, ?_, ?_, ?_, ?_⟩
    · rw [hsz1]
      exact Nat.succ_ne_self s.size
    · rw [h2]
      simp only [dirGet, dirChildren, hd2]
      exact lookupChild_setChild_self _ n s1.size
    · rw [h2]
      simp only [contentAt, hi2]
    · rw [h2]
      simp only [dirChildren, hd2, hd1]
      rw [keys_setChild_mem _ n s1.size (by rw [hlk1]; exact fun h => Option.noConfusion h)]
    · simp only [dirGet, dirChildren, hd1]
      exact hlk1
    · simp only [contentAt, hi1]
  · rw [addFile, hd] at h1
    exact absurd (congrArg Prod.snd h1) (by simp)

/-- C4 witness for the amended statement: the two calls on a concrete
heap, with the fresh node and the replaced content visible. -/
theorem addFile_overwrite_fresh_witness :
    addFile vfs0 0 "n" [1] = (vfs1, .ok 1) ∧
    ((addFile vfs1 0 "n" [2]).2 = .ok vfs1.size ∧ vfs1.size ≠ 1 ∧
      dirGet (addFile vfs1 0 "n" [2]).1 0 "n" = some vfs1.size ∧
      contentAt (addFile vfs1 0 "n" [2]).1 vfs1.size = some [2] ∧
      (dirChildren (addFile vfs1 0 "n" [2]).1 0).map Prod.fst =
        (dirChildren vfs1 0).map Prod.fst ∧
      dirGet vfs1 0 "n" = some 1 ∧ contentAt vfs1 1 = some [1]) :=
  ⟨by decide, addFile_overwrite_fresh vfs0 0 "n" [1] [2] vfs1 1 (by decide)⟩

/-! ### Step equations for the resolution loops -/

theorem resolveLoop_dot (s : VFS) (root cur : NodeId) (rest : List String) :
    resolveLoop s root cur ("." :: rest) = resolveLoop s root cur rest := by
  rw [resolveLoop, if_pos rfl]

theorem resolveLoop_dotdot {s : VFS} {cur : NodeId} {n : VNode} (root : NodeId)
    (rest : List String) (hg : s.get? cur = some n) :
    resolveLoop s root cur (".." :: rest) =
      (match n.parent with
       | none => resolveLoop s root root rest
       | some p => resolveLoop s root p rest) := by
  rw [resolveLoop, if_neg (by decide : ¬(".." : String) = "."), if_pos rfl]
  simp only [hg]

theorem resolveLoop_named {s : VFS} {cur : NodeId} {part : String}
    (root : NodeId) (rest : List String)
    (h1 : part ≠ ".") (h2 : part ≠ "..")
    {dn : String} {dp : Option Nat} {cs : List (String × Nat)}
    (hg : s.get? cur = some ⟨dn, dp, .dir cs⟩) :
    resolveLoop s root cur (part :: rest) =
      (match lookupChild cs part with
       | none => (s, .error .notFound)
       | some nxt => resolveLoop s root nxt rest) := by
  rw [resolveLoop, if_neg h1, if_neg h2]
  simp only [hg]

theorem resolveLoop_named_file {s : VFS} {cur : NodeId} {part : String}
    (root : NodeId) (rest : List String)
    (h1 : part ≠ ".") (h2 : part ≠ "..")
    {nm : String} {pr : Option Nat} {cc : List Nat}
    (hg : s.get? cur = some ⟨nm, pr, .file cc⟩) :
    resolveLoop s root cur (part :: rest) = (s, .error .notADirectory) := by
  rw [resolveLoop, if_neg h1, if_neg h2]
  simp only [hg]

theorem rpfcLoop_dot (s : VFS) (root cur : NodeId) (rest : List String) :
    rpfcLoop s root cur ("." :: rest) = rpfcLoop s root cur rest := by
  rw [rpfcLoop, if_pos rfl]

theorem rpfcLoop_dotdot {s : VFS} {cur : NodeId} {n : VNode} (root : NodeId)
    (rest : List String) (hg : s.get? cur = some n) :
    rpfcLoop s root cur (".." :: rest) =
      (match n.parent with
       | none => rpfcLoop s root root rest
       | some p => rpfcLoop s root p rest) := by
  rw [rpfcLoop, if_neg (by decide : ¬(".." : String) = "."), if_pos rfl]
  simp only [hg]

theorem rpfcLoop_named {s : VFS} {cur : NodeId} {part : String}
    (root : NodeId) (rest : List String)
    (h1 : part ≠ ".") (h2 : part ≠ "..")
    {dn : String} {dp : Option Nat} {cs : List (String × Nat)}
    (hg : s.get? cur = some ⟨dn, dp, .dir cs⟩) :
    rpfcLoop s root cur (part :: rest) =
      (match lookupChild cs part with
       | none => (s, .error .notFound)
       | some nxt =>
         match s.get? nxt with
         | some ⟨_, _, .dir _⟩ => rpfcLoop s root nxt rest
         | some ⟨_, _, .file _⟩ => (s, .error .notADirectory)
         | none => (s, .error .badState)) := by
  rw [rpfcLoop, if_neg h1, if_neg h2]
  simp only [hg]

theorem rpfcLoop_named_file {s : VFS} {cur : NodeId} {part : String}
    (root : NodeId) (rest : List String)
    (h1 : part ≠ ".") (h2 : part ≠ "..")
    {nm : String} {pr : Option Nat} {cc : List Nat}
    (hg : s.get? cur = some ⟨nm, pr, .file cc⟩) :
    rpfcLoop s root cur (part :: rest) = (s, .error .notADirectory) := by
  rw [rpfcLoop, if_neg h1, if_neg h2]
  simp only [hg]

theorem rpfcLoop_append (s : VFS) (root : NodeId) (l1 l2 : List String) :
    ∀ cur, rpfcLoop s root cur (l1 ++ l2) =
      (match rpfcLoop s root cur l1 with
       | (_, .ok m) => rpfcLoop s root m l2
       | (s1, .error e) => (s1, .error e)) := by
  induction l1 with
  | nil =>
    intro cur
    rfl
  | cons part rest ih =>
    intro cur
    by_cases h1 : part = "."
    · subst h1
      rw [List.cons_append, rpfcLoop_dot, rpfcLoop_dot, ih]
    · by_cases h2 : part = ".."
      · subst h2
        rcases hg : s.get? cur with _ | n
        · rw [List.cons_append, rpfcLoop, if_neg (by decide : ¬(".." : String) = "."),
            if_pos rfl]
          conv_rhs => rw [rpfcLoop, if_neg (by decide : ¬(".." : String) = "."), if_pos rfl]
          simp only [hg]
        · rw [List.cons_append, rpfcLoop_dotdot root _ hg]
          conv_rhs => rw [rpfcLoop_dotdot root _ hg]
          rcases n.parent with _ | p
          · exact ih root
          · exact ih p
      · rcases hg : s.get? cur with _ | ⟨dn, dp, cs | cc⟩
        · rw [List.cons_append, rpfcLoop, if_neg h1, if_neg h2]
          conv_rhs => rw [rpfcLoop, if_neg h1, if_neg h2]
          simp only [hg]
        · rw [List.cons_append, rpfcLoop_named root _ h1 h2 hg]
          conv_rhs => rw [rpfcLoop_named root _ h1 h2 hg]
          rcases lookupChild cs part with _ | nxt
          · rfl
          · dsimp only
            rcases hnx : s.get? nxt with _ | ⟨a, b, c | d⟩ <;> dsimp only
            all_goals first | rfl | exact ih nxt
        · rw [List.cons_append, rpfcLoop_named_file root _ h1 h2 hg]
          conv_rhs => rw [rpfcLoop_named_file root _ h1 h2 hg]

theorem resolveLoop_append (s : VFS) (root : NodeId) (l1 l2 : List String) :
    ∀ cur, resolveLoop s root cur (l1 ++ l2) =
      (match resolveLoop s root cur l1 with
       | (_, .ok m) => resolveLoop s root m l2
       | (s1, .error e) => (s1, .error e)) := by
  induction l1 with
  | nil =>
    intro cur
    rfl
  | cons part rest ih =>
    intro cur
    by_cases h1 : part = "."
    · subst h1
      rw [List.cons_append, resolveLoop_dot, resolveLoop_dot, ih]
    · by_cases h2 : part = ".."
      · subst h2
        rcases hg : s.get? cur with _ | n
        · rw [List.cons_append, resolveLoop, if_neg (by decide : ¬(".." : String) = "."),
            if_pos rfl]
          conv_rhs => rw [resolveLoop, if_neg (by decide : ¬(".." : String) = "."), if_pos rfl]
          simp only [hg]
        · rw [List.cons_append, resolveLoop_dotdot root _ hg]
          conv_rhs => rw [resolveLoop_dotdot root _ hg]
          rcases n.parent with _ | p
          · exact ih root
          · exact ih p
      · rcases hg : s.get? cur with _ | ⟨dn, dp, cs | cc⟩
        · rw [List.cons_append, resolveLoop, if_neg h1, if_neg h2]
          conv_rhs => rw [resolveLoop, if_neg h1, if_neg h2]
          simp only [hg]
        · rw [List.cons_append, resolveLoop_named root _ h1 h2 hg]
          conv_rhs => rw [resolveLoop_named root _ h1 h2 hg]
          rcases lookupChild cs part with _ | nxt
          · rfl
          · dsimp only
            exact ih nxt
        · rw [List.cons_append, resolveLoop_named_file root _ h1 h2 hg]
          conv_rhs => rw [resolveLoop_named_file root _ h1 h2 hg]

/-! ### C6 -/

theorem splitSlash_empty : splitSlash "" = [] := by decide

theorem splitSlash_slash : splitSlash "/" = [] := by decide

theorem rpfcStripped_empty : rpfcStripped "" = "" := by decide

theorem rpfcStripped_slash : rpfcStripped "/" = "/" := by decide

/-- If the creation path still has components after stripping, the two
leading guards of `_resolve_parent_for_creation` do not fire. -/
theorem rpfc_guards {p : String} (hne : splitSlash (rpfcStripped p) ≠ []) :
    p ≠ "" ∧ ¬(rpfcStripped p = "" ∨ rpfcStripped p = "/") := by
  constructor
  · intro h
    subst h
    rw [rpfcStripped_empty, splitSlash_empty] at hne
    exact hne rfl
  · rintro (h | h) <;> rw [h] at hne
    · rw [splitSlash_empty] at hne
      exact hne rfl
    · rw [splitSlash_slash] at hne
      exact hne rfl

/-- C6: `_resolve_parent_for_creation` fails `InvalidPath` on the empty
path, on `/`, and whenever the final component is `.` or `..`; it fails
`NotFound` when an intermediate component is missing from the directory
reached so far (never auto-creating it), and `NotADirectory` when that
intermediate component names a file. -/
theorem rpfc_error_policy (s : VFS) (st root : NodeId) :
    (resolveParentForCreation s st root "" = (s, .error .invalidPath)) ∧
    (resolveParentForCreation s st root "/" = (s, .error .invalidPath)) ∧
    (∀ p : String, splitSlash (rpfcStripped p) ≠ [] →
        ((splitSlash (rpfcStripped p)).getLast! = "." ∨
         (splitSlash (rpfcStripped p)).getLast! = "..") →
        resolveParentForCreation s st root p = (s, .error .invalidPath)) ∧
    (∀ (p : String) (pre : List String) (part : String) (rest : List String)
        (D : NodeId) (dn : String) (dp : Option Nat) (cs : List (String × Nat)),
        splitSlash (rpfcStripped p) ≠ [] →
        (splitSlash (rpfcStripped p)).getLast! ≠ "." →
        (splitSlash (rpfcStripped p)).getLast! ≠ ".." →
        (splitSlash (rpfcStripped p)).dropLast = pre ++ part :: rest →
        rpfcLoop s root (if startsWithSlash (rpfcStripped p) then root else st) pre =
          (s, .ok D) →
        s.get? D = some ⟨dn, dp, .dir cs⟩ →
        part ≠ "." → part ≠ ".." →
        (lookupChild cs part = none →
          resolveParentForCreation s st root p = (s, .error .notFound)) ∧
        (∀ c cn cp cc, lookupChild cs part = some c →
          s.get? c = some ⟨cn, cp, .file cc⟩ →
          resolveParentForCreation s st root p = (s, .error .notADirectory))) := by
  refine ⟨by rw [resolveParentForCreation, if_pos rfl], ?_, ?_, ?_⟩
  · rw [resolveParentForCreation, if_neg (by decide : ¬("/" : String) = "")]
    rw [if_pos (Or.inr rpfcStripped_slash)]
  · intro p hne hlast
    obtain ⟨g1, g2⟩ := rpfc_guards hne
    rw [resolveParentForCreation, if_neg g1, if_neg g2, if_neg hne, if_pos hlast]
  · intro p pre part rest D dn dp cs hne hl1 hl2 hdrop hpre hD hp1 hp2
    obtain ⟨g1, g2⟩ := rpfc_guards hne
    have hloop := rpfcLoop_append s root pre (part :: rest)
        (if startsWithSlash (rpfcStripped p) then root else st)
    rw [hpre] at hloop
    constructor
    · intro hlkNone
      have hstep : rpfcLoop s root D (part :: rest) = (s, .error .notFound) := by
        rw [rpfcLoop_named root _ hp1 hp2 hD, hlkNone]
      rw [resolveParentForCreation, if_neg g1, if_neg g2, if_neg hne,
        if_neg (by rintro (h | h); exacts [hl1 h, hl2 h]), hdrop, hloop]
      dsimp only
      rw [hstep]
    · intro c cn cp cc hlk hc
      have hstep : rpfcLoop s root D (part :: rest) = (s, .error .notADirectory) := by
        simp only [rpfcLoop_named root _ hp1 hp2 hD, hlk, hc]
      rw [resolveParentForCreation, if_neg g1, if_neg g2, if_neg hne,
        if_neg (by rintro (h | h); exacts [hl1 h, hl2 h]), hdrop, hloop]
      dsimp only
      rw [hstep]

/-- C6 witness: the claim's own examples on a concrete heap whose root
holds a single file `n`: creating at `/a/b/c.txt` (with `/a` absent)
fails `NotFound`, creating at `/n/x` (descending through the file `n`)
fails `NotADirectory`, and the `InvalidPath` cases fire on `""` and
`/`. -/
theorem rpfc_error_policy_witness :
    resolveParentForCreation vfs1 0 0 "" = (vfs1, .error .invalidPath) ∧
    resolveParentForCreation vfs1 0 0 "/" = (vfs1, .error .invalidPath) ∧
    resolveParentForCreation vfs1 0 0 "/x/.." = (vfs1, .error .invalidPath) ∧
    resolveParentForCreation vfs1 0 0 "/a/b/c.txt" = (vfs1, .error .notFound) ∧
    resolveParentForCreation vfs1 0 0 "/n/x" = (vfs1, .error .notADirectory) :=
  ⟨(rpfc_error_policy vfs1 0 0).1,
   (rpfc_error_policy vfs1 0 0).2.1,
   (rpfc_error_policy vfs1 0 0).2.2.1 "/x/.." (by decide) (by decide),
   ((rpfc_error_policy vfs1 0 0).2.2.2 "/a/b/c.txt" [] "a" ["b"] 0 "/" none
      [("n", 1)] (by decide) (by decide) (by decide) (by decide) (by decide) rfl
      (by decide) (by decide)).1 (by decide),
   ((rpfc_error_policy vfs1 0 0).2.2.2 "/n/x" [] "n" [] 0 "/" none
      [("n", 1)] (by decide) (by decide) (by decide) (by decide) (by decide) rfl
      (by decide) (by decide)).2 1 "n" (some 0) [1] (by decide) rfl⟩

/-! ### C8: string round-trip lemmas -/

theorem splitChars_no_slash : ∀ {w : List Char}, '/' ∉ w → splitChars w = [w] := by
  intro w
  induction w with
  | nil => intro _; rfl
  | cons c rest ih =>
    intro h
    rw [splitChars, if_neg (fun hc => h (by rw [hc]; exact List.mem_cons_self _ _)),
      ih (fun hm => h (List.mem_cons_of_mem c hm))]

theorem splitChars_append_slash : ∀ {w rest : List Char}, '/' ∉ w →
    splitChars (w ++ '/' :: rest) = w :: splitChars rest := by
  intro w rest
  induction w with
  | nil => intro _; rw [List.nil_append, splitChars, if_pos rfl]
  | cons c w2 ih =>
    intro h
    rw [List.cons_append, splitChars,
      if_neg (fun hc => h (by rw [hc]; exact List.mem_cons_self _ _)),
      ih (fun hm => h (List.mem_cons_of_mem c hm))]

theorem splitChars_join : ∀ {l : List String},
    (∀ nm ∈ l, nm.toList ≠ [] ∧ '/' ∉ nm.toList) → l ≠ [] →
    splitChars (joinSlash l) = l.map String.toList := by
  intro l
  induction l with
  | nil => intro _ h; exact absurd rfl h
  | cons nm l2 ih =>
    intro hv _
    rcases l2 with _ | ⟨nm2, l3⟩
    · rw [joinSlash, splitChars_no_slash (hv nm (List.mem_cons_self _ _)).2]
      rfl
    · have hnil : (nm2 :: l3 : List String) ≠ [] := by
        intro hcontra
        exact List.noConfusion hcontra
      rw [joinSlash, splitChars_append_slash (hv nm (List.mem_cons_self _ _)).2,
        ih (fun y hy => hv y (List.mem_cons_of_mem _ hy)) hnil]
      · rfl
      · exact hnil

theorem filter_map_pieces : ∀ (ls : List String), (∀ nm ∈ ls, nm.toList ≠ []) →
    ((ls.map String.toList).filter (· ≠ [])).map (fun l => String.mk l) = ls := by
  intro ls
  induction ls with
  | nil => intro _; rfl
  | cons nm l2 ih =>
    intro hv
    rw [List.map_cons, List.filter_cons,
      if_pos (by simpa using hv nm (List.mem_cons_self _ _)), List.map_cons,
      ih (fun y hy => hv y (List.mem_cons_of_mem _ hy))]
    rfl

theorem splitSlash_abs : ∀ {l : List String},
    (∀ nm ∈ l, nm.toList ≠ [] ∧ '/' ∉ nm.toList) →
    splitSlash (String.mk ('/' :: joinSlash l)) = l := by
  intro l hv
  rcases l with _ | ⟨nm, l2⟩
  · decide
  · rw [splitSlash]
    have ht : (String.mk ('/' :: joinSlash (nm :: l2))).toList =
        '/' :: joinSlash (nm :: l2) := rfl
    rw [ht, splitChars, if_pos rfl, splitChars_join hv (by simp), List.filter_cons]
    rw [if_neg (by simp)]
    exact filter_map_pieces (nm :: l2) (fun y hy => (hv y hy).1)

/-! ### C8: chain lemmas -/

theorem upNames_stable {s : VFS} {root : NodeId} (h : WF s root) :
    ∀ i, ∀ f, i + 1 ≤ f → upNames s f i = upNames s (i + 1) i := by
  intro i
  induction i using Nat.strong_induction_on with
  | _ i ih =>
    intro f hf
    rcases f with _ | f2
    · omega
    · rw [upNames]
      conv_rhs => rw [upNames]
      rcases hg : s.get? i with _ | n <;> simp only [hg]
      rcases hp : n.parent with _ | p <;> simp only [hp]
      have hpi : p < i := h.parent_lt hg hp
      rw [ih p hpi f2 (by omega), ih p hpi i (by omega)]

theorem goodPath_stable {s : VFS} {root : NodeId} (h : WF s root) :
    ∀ i, ∀ f, i + 1 ≤ f → goodPath s f i = goodPath s (i + 1) i := by
  intro i
  induction i using Nat.strong_induction_on with
  | _ i ih =>
    intro f hf
    rcases f with _ | f2
    · omega
    · rw [goodPath]
      conv_rhs => rw [goodPath]
      rcases hg : s.get? i with _ | n <;> simp only [hg]
      rcases hp : n.parent with _ | p <;> simp only [hp]
      have hpi : p < i := h.parent_lt hg hp
      rw [ih p hpi f2 (by omega), ih p hpi i (by omega)]

theorem validNameB_spec {nm : String} (h : validNameB nm = true) :
    nm.toList ≠ [] ∧ '/' ∉ nm.toList ∧ nm ≠ "." ∧ nm ≠ ".." := by
  rw [validNameB] at h
  simp only [Bool.and_eq_true, decide_eq_true_eq] at h
  exact ⟨h.1.1.1, h.1.1.2, h.1.2, h.2⟩

theorem goodPath_names_valid {s : VFS} {root : NodeId} (h : WF s root) :
    ∀ i, goodPath s (i + 1) i = true →
      ∀ nm ∈ upNames s (i + 1) i,
        nm.toList ≠ [] ∧ '/' ∉ nm.toList ∧ nm ≠ "." ∧ nm ≠ ".." := by
  intro i
  induction i using Nat.strong_induction_on with
  | _ i ih =>
    intro hgp nm hmem
    rw [goodPath] at hgp
    rw [upNames] at hmem
    rcases hg : s.get? i with _ | n <;> simp only [hg] at hgp hmem
    · exact absurd hgp (by simp)
    · rcases hp : n.parent with _ | p <;> simp only [hp] at hgp hmem
      · simp at hmem
      · simp only [Bool.and_eq_true, decide_eq_true_eq] at hgp
        have hpi : p < i := h.parent_lt hg hp
        rcases List.mem_cons.1 hmem with h1 | h1
        · subst h1
          exact validNameB_spec hgp.1.2
        · have hst : upNames s i p = upNames s (p + 1) p := upNames_stable h p i hpi
          rw [hst] at h1
          have hgst : goodPath s i p = goodPath s (p + 1) p := goodPath_stable h p i hpi
          rw [hgst] at hgp
          exact ih p hpi hgp.2 nm h1

/-- Walking down from the root along the reversed parent-chain names of a
reachable node resolves back to that node. -/
theorem resolveLoop_upNames {s : VFS} {root : NodeId} (h : WF s root) :
    ∀ x, goodPath s (x + 1) x = true →
      resolveLoop s root root ((upNames s (x + 1) x).reverse) = (s, .ok x) := by
  intro x
  induction x using Nat.strong_induction_on with
  | _ x ih =>
    intro hgp
    rw [goodPath] at hgp
    rw [upNames]
    rcases hg : s.get? x with _ | n <;> simp only [hg] at hgp ⊢
    · exact absurd hgp (by simp)
    · rcases hp : n.parent with _ | p <;> simp only [hp] at hgp ⊢
      · have hxr : x = root := h.parent_none_root hg hp
        rw [List.reverse_nil]
        rw [hxr]
        rfl
      · simp only [Bool.and_eq_true, decide_eq_true_eq] at hgp
        obtain ⟨⟨hdg, hvn⟩, hgp2⟩ := hgp
        have hpi : p < x := h.parent_lt hg hp
        have hst : upNames s x p = upNames s (p + 1) p := upNames_stable h p x hpi
        have hgst : goodPath s x p = goodPath s (p + 1) p := goodPath_stable h p x hpi
        rw [hst, List.reverse_cons, resolveLoop_append]
        rw [ih p hpi (hgst ▸ hgp2)]
        dsimp only
        obtain ⟨hne, hns, hnd, hndd⟩ := validNameB_spec hvn
        rcases hgP : s.get? p with _ | ⟨pn, pp, pcs | pcc⟩
        · simp only [dirGet, dirChildren, hgP] at hdg
          exact absurd hdg (by simp [lookupChild])
        · simp only [dirGet, dirChildren, hgP] at hdg
          rw [resolveLoop_named root _ hnd hndd hgP, hdg]
          rfl
        · simp only [dirGet, dirChildren, hgP] at hdg
          exact absurd hdg (by simp [lookupChild])

/-! ### C8: the claim -/

/-- C8 counterexample: the public mutators accept the name `..`, and for
such a (reachable, well-formed) node the round-trip fails: the file
`/..` has `abspath` `/..`, which resolves to the root, not to the file.
-/
theorem abspath_roundtrip_cex :
    WF (addFile vfs0 0 ".." []).1 0 ∧
    dirGet (addFile vfs0 0 ".." []).1 0 ".." = some 1 ∧
    (resolveInVfs (addFile vfs0 0 ".." []).1 0 0
        (some (abspath (addFile vfs0 0 ".." []).1 1))).2 ≠ .ok 1 := by
  decide

/-- C8 amended: `abspath` round-trips through `resolve` for every node
that is reachable from the root along registered parent links whose names
are usable path components (non-empty, no `/`, not `.` or `..`):
`resolve(root, root, abspath(x))` returns `x` itself.  (Nodes with
unusable names — constructible through the public mutators — break the
round-trip, as the counterexample shows.) -/
theorem abspath_roundtrip (s : VFS) (root x : NodeId) (h : WF s root)
    (hgp : goodPath s (x + 1) x = true) :
    (resolveInVfs s root root (some (abspath s x))).2 = .ok x := by
  rcases hg : s.get? x with _ | n
  · rw [goodPath, hg] at hgp
    exact absurd hgp (by simp)
  rcases hp : n.parent with _ | p
  · have hxr : x = root := h.parent_none_root hg hp
    have habs : abspath s x = "/" := by
      rw [abspath, hg]
      simp only [hp]
    rw [habs, resolveInVfs, if_neg (by decide : ¬("/" : String) = "."),
      if_pos (by decide : startsWithSlash "/" = true), splitSlash_slash, hxr]
    rfl
  · have habs : abspath s x =
        String.mk ('/' :: joinSlash ((upNames s (x + 1) x).reverse)) := by
      rw [abspath, hg]
      simp only [hp]
    have hv : ∀ nm ∈ (upNames s (x + 1) x).reverse,
        nm.toList ≠ [] ∧ '/' ∉ nm.toList := by
      intro nm hmem
      have := goodPath_names_valid h x hgp nm (List.mem_reverse.1 hmem)
      exact ⟨this.1, this.2.1⟩
    have hne : abspath s x ≠ "." := by
      rw [habs]
      intro hc
      have := congrArg String.toList hc
      simp at this
    have hsw : startsWithSlash (abspath s x) = true := by
      rw [habs]
      rfl
    have hsplit : splitSlash (abspath s x) = (upNames s (x + 1) x).reverse := by
      rw [habs]
      exact splitSlash_abs hv
    rw [resolveInVfs, if_neg hne, if_pos hsw, hsplit, resolveLoop_upNames h x hgp]

/-- C8 witness for the amended statement: round-trip on a concrete
two-node tree. -/
theorem abspath_roundtrip_witness :
    WF vfsA 0 ∧ goodPath vfsA 2 1 = true ∧
    (resolveInVfs vfsA 0 0 (some (abspath vfsA 1))).2 = .ok 1 :=
  ⟨by decide, by decide, abspath_roundtrip vfsA 0 1 (by decide) (by decide)⟩

/-! ### C3: walk equals the pre-order specification -/

theorem preWalk_zero (s : VFS) (maxdepth : Option Nat) (i : NodeId) (d : Nat) :
    preWalk s maxdepth 0 i d = [(i, d)] := rfl

theorem preWalk_succ (s : VFS) (maxdepth : Option Nat) (f : Nat) (i : NodeId) (d : Nat) :
    preWalk s maxdepth (f + 1) i d =
      (i, d) ::
        (match s.get? i with
         | some ⟨_, _, .dir cs⟩ =>
           if depthOpen maxdepth d then
             ((walkPushOrder cs).reverse).flatMap
               (fun e => preWalk s maxdepth f e.2 (d + 1))
           else []
         | _ => []) := rfl

theorem walkLoop_zero (s : VFS) (maxdepth : Option Nat) (stack : List (NodeId × Nat)) :
    walkLoop s maxdepth 0 stack = [] := rfl

theorem walkLoop_succ_nil (s : VFS) (maxdepth : Option Nat) (f : Nat) :
    walkLoop s maxdepth (f + 1) [] = [] := rfl

theorem walkLoop_succ_cons (s : VFS) (maxdepth : Option Nat) (f : Nat)
    (i : NodeId) (d : Nat) (rest : List (NodeId × Nat)) :
    walkLoop s maxdepth (f + 1) ((i, d) :: rest) =
      (i, d) ::
        (match s.get? i with
         | some ⟨_, _, .dir cs⟩ =>
           if depthOpen maxdepth d then
             walkLoop s maxdepth f
               (((walkPushOrder cs).reverse.map (fun e => (e.2, d + 1))) ++ rest)
           else walkLoop s maxdepth f rest
         | _ => walkLoop s maxdepth f rest) := rfl

theorem flatMapCongr {α β : Type} {l : List α} {f g : α → List β}
    (h : ∀ x ∈ l, f x = g x) : l.flatMap f = l.flatMap g := by
  induction l with
  | nil => rfl
  | cons a rest ih =>
    rw [List.flatMap_cons, List.flatMap_cons, h a (List.mem_cons_self _ _),
      ih (fun x hx => h x (List.mem_cons_of_mem _ hx))]

theorem mem_walkPushOrder {cs : List (String × Nat)} {e : String × Nat}
    (h : e ∈ (walkPushOrder cs).reverse) : e ∈ cs := by
  rw [List.mem_reverse] at h
  exact (List.perm_insertionSort childGe cs).subset h

theorem preWalk_stable {s : VFS} {root : NodeId} {maxdepth : Option Nat}
    (h : WF s root) :
    ∀ (k i : Nat), s.size - i ≤ k → ∀ d f1 f2, i < s.size →
      s.size - i ≤ f1 → s.size - i ≤ f2 →
      preWalk s maxdepth f1 i d = preWalk s maxdepth f2 i d := by
  intro k
  induction k with
  | zero =>
    intro i hk d f1 f2 hi _ _
    exact absurd hi (by omega)
  | succ k ih =>
    intro i hk d f1 f2 hi hf1 hf2
    obtain ⟨g1, rfl⟩ : ∃ g, f1 = g + 1 := ⟨f1 - 1, by omega⟩
    obtain ⟨g2, rfl⟩ : ∃ g, f2 = g + 1 := ⟨f2 - 1, by omega⟩
    rw [preWalk_succ, preWalk_succ]
    rcases hgI : s.get? i with _ | ⟨nm, pr, cs | cc⟩ <;> simp only [hgI]
    · by_cases hgd : depthOpen maxdepth d = true
      · rw [if_pos hgd, if_pos hgd]
        congr 1
        apply flatMapCongr
        intro e he
        have hmem := mem_walkPushOrder he
        obtain ⟨hlt, hsz, _⟩ := h.entry_spec hgI hmem
        have hd1 : s.size - e.2 < s.size - i := Nat.sub_lt_sub_left hi hlt
        exact ih e.2 (by omega) (d + 1) g1 g2 hsz (by omega) (by omega)
      · rw [if_neg hgd, if_neg hgd]

/-- One stack entry at a directory with the depth guard open: `preOne`
unfolds to the node followed by its children's pre-orders. -/
theorem preOne_dir {s : VFS} {root : NodeId} {maxdepth : Option Nat}
    (h : WF s root) {i : NodeId} {d : Nat}
    {nm : String} {pr : Option Nat} {cs : List (String × Nat)}
    (hgI : s.get? i = some ⟨nm, pr, .dir cs⟩)
    (hgd : depthOpen maxdepth d = true) :
    preOne s maxdepth (i, d) =
      (i, d) :: ((walkPushOrder cs).reverse.map (fun e => (e.2, d + 1))).flatMap
        (preOne s maxdepth) := by
  have hi : i < s.size := VFS.get?_lt_size hgI
  obtain ⟨g, hg⟩ : ∃ g, s.size = g + 1 :=
    ⟨s.size - 1, (Nat.succ_pred_eq_of_pos (Nat.lt_of_le_of_lt (Nat.zero_le i) hi)).symm⟩
  rw [preOne]
  conv_lhs => rw [hg, preWalk_succ]
  simp only [hgI, if_pos hgd]
  congr 1
  rw [List.flatMap_map]
  apply flatMapCongr
  intro e he
  have hmem := mem_walkPushOrder he
  obtain ⟨hlt, hsz, _⟩ := h.entry_spec hgI hmem
  have he2 : 0 < e.2 := Nat.lt_of_le_of_lt (Nat.zero_le i) hlt
  rw [preOne]
  exact preWalk_stable h s.size e.2 (by omega) (d + 1) g s.size hsz (by omega) (by omega)

/-- One stack entry at a directory with the depth guard closed, at a file,
or at a dangling id: `preOne` yields just the node. -/
theorem preOne_leaf {s : VFS} {maxdepth : Option Nat} {i : NodeId} {d : Nat}
    (hcase :
      (∃ nm pr cs, s.get? i = some ⟨nm, pr, .dir cs⟩ ∧
        depthOpen maxdepth d = false) ∨
      (∃ nm pr cc, s.get? i = some ⟨nm, pr, .file cc⟩) ∨ s.get? i = none) :
    preOne s maxdepth (i, d) = [(i, d)] := by
  rw [preOne]
  rcases hsz : s.size with _ | g
  · rfl
  · rw [preWalk_succ]
    rcases hcase with ⟨nm, pr, cs, hgI, hgd⟩ | ⟨nm, pr, cc, hgI⟩ | hgI <;> simp only [hgI]
    rw [hgd]
    rfl

theorem preOne_length_pos (s : VFS) (maxdepth : Option Nat) (e : NodeId × Nat) :
    1 ≤ (preOne s maxdepth e).length := by
  rw [preOne]
  rcases hsz : s.size with _ | g
  · simp [preWalk_zero]
  · rw [preWalk_succ]
    simp

/-- The stack machine of `_walk_vfs` computes the concatenation of the
pre-orders of the stack entries, given enough fuel. -/
theorem walkLoop_flatten {s : VFS} {root : NodeId} {maxdepth : Option Nat}
    (h : WF s root) :
    ∀ (n : Nat) (stack : List (NodeId × Nat)),
      (∀ e ∈ stack, e.1 < s.size) →
      (stack.map (fun e => (preOne s maxdepth e).length)).sum ≤ n →
      walkLoop s maxdepth n stack = stack.flatMap (preOne s maxdepth) := by
  intro n
  induction n using Nat.strong_induction_on with
  | _ n ih =>
    intro stack hvalid hsum
    rcases stack with _ | ⟨⟨i, d⟩, rest⟩
    · rcases n with _ | m <;> rfl
    · have hone := preOne_length_pos s maxdepth (i, d)
      rcases n with _ | m
      · exfalso
        simp only [List.map_cons, List.sum_cons] at hsum
        omega
      · rw [walkLoop_succ_cons]
        have hi : i < s.size := hvalid (i, d) (List.mem_cons_self _ _)
        rcases hgI : s.get? i with _ | ⟨nm, pr, cs | cc⟩ <;> simp only [hgI]
        · -- dangling id: leaf
          rw [List.flatMap_cons, preOne_leaf (Or.inr (Or.inr hgI))]
          rw [ih m (by omega) rest (fun e he => hvalid e (List.mem_cons_of_mem _ he)) ?_]
          · rfl
          · simp only [List.map_cons, List.sum_cons] at hsum
            omega
        · by_cases hgd : depthOpen maxdepth d = true
          · rw [if_pos hgd]
            have hpre := @preOne_dir _ _ maxdepth h _ _ _ _ _ hgI hgd
            have hlen : (preOne s maxdepth (i, d)).length =
                1 + ((((walkPushOrder cs).reverse.map (fun e => (e.2, d + 1))).map
                  (fun e => (preOne s maxdepth e).length)).sum) := by
              rw [hpre, List.length_cons, List.length_flatMap]
              exact Nat.add_comm _ 1
            have hv2 : ∀ e ∈ (walkPushOrder cs).reverse.map (fun e => (e.2, d + 1)) ++ rest,
                e.1 < s.size := by
              intro e he
              rcases List.mem_append.1 he with he1 | he1
              · obtain ⟨e0, he0, rfl⟩ := List.mem_map.1 he1
                exact (h.entry_spec hgI (mem_walkPushOrder he0)).2.1
              · exact hvalid e (List.mem_cons_of_mem _ he1)
            rw [ih m (by omega)
                ((walkPushOrder cs).reverse.map (fun e => (e.2, d + 1)) ++ rest) hv2 ?_]
            · rw [List.flatMap_append, List.flatMap_cons, hpre]
              rfl
            · simp only [List.map_cons, List.sum_cons, List.map_append,
                List.sum_append] at hsum ⊢
              omega
          · rw [if_neg ?_]
            · rw [List.flatMap_cons,
                preOne_leaf (Or.inl ⟨nm, pr, cs, hgI, Bool.not_eq_true _ ▸ hgd⟩)]
              rw [ih m (by omega) rest (fun e he => hvalid e (List.mem_cons_of_mem _ he)) ?_]
              · rfl
              · simp only [List.map_cons, List.sum_cons] at hsum
                omega
            · exact hgd
        · rw [List.flatMap_cons, preOne_leaf (Or.inr (Or.inl ⟨nm, pr, cc, hgI⟩))]
          rw [ih m (by omega) rest (fun e he => hvalid e (List.mem_cons_of_mem _ he)) ?_]
          · rfl
          · simp only [List.map_cons, List.sum_cons] at hsum
            omega

/-! ### C3: parent chains and uniqueness of visits -/

theorem chainList_zero (s : VFS) (i : NodeId) : chainList s 0 i = [i] := rfl

theorem chainList_succ (s : VFS) (f : Nat) (i : NodeId) :
    chainList s (f + 1) i =
      i :: (match parentOf s i with
            | none => []
            | some p => chainList s f p) := rfl

theorem parentOf_eq_some {s : VFS} {i p : NodeId} (h : parentOf s i = some p) :
    ∃ n, s.get? i = some n ∧ n.parent = some p := by
  rw [parentOf] at h
  rcases hg : s.get? i with _ | n <;> rw [hg] at h
  · exact absurd h (by simp)
  · exact ⟨n, rfl, h⟩

theorem chainList_stable {s : VFS} {root : NodeId} (h : WF s root) :
    ∀ i, ∀ f, i + 1 ≤ f → chainList s f i = chainList s (i + 1) i := by
  intro i
  induction i using Nat.strong_induction_on with
  | _ i ih =>
    intro f hf
    obtain ⟨g, rfl⟩ : ∃ g, f = g + 1 := ⟨f - 1, by omega⟩
    rw [chainList_succ]
    conv_rhs => rw [chainList_succ]
    rcases hp : parentOf s i with _ | p <;> simp only [hp]
    obtain ⟨n, hg, hpn⟩ := parentOf_eq_some hp
    have hpi : p < i := h.parent_lt hg hpn
    rw [ih p hpi g (by omega), ih p hpi i (by omega)]

theorem chain_mem_le {s : VFS} {root : NodeId} (h : WF s root) :
    ∀ i, ∀ y ∈ chainList s (i + 1) i, y ≤ i := by
  intro i
  induction i using Nat.strong_induction_on with
  | _ i ih =>
    intro y hy
    rw [chainList_succ] at hy
    rcases List.mem_cons.1 hy with rfl | hy2
    · exact Nat.le_refl y
    · rcases hp : parentOf s i with _ | p <;> simp only [hp] at hy2
      · simp at hy2
      · obtain ⟨n, hg, hpn⟩ := parentOf_eq_some hp
        have hpi : p < i := h.parent_lt hg hpn
        rw [chainList_stable h p i hpi] at hy2
        exact Nat.le_trans (ih p hpi y hy2) (Nat.le_of_lt hpi)

theorem chain_self (s : VFS) (i : NodeId) : i ∈ chainList s (i + 1) i := by
  rw [chainList_succ]
  exact List.mem_cons_self _ _

theorem chain_parent_mem {s : VFS} {root : NodeId} (h : WF s root) {c i : NodeId}
    (hp : parentOf s c = some i) : i ∈ chainList s (c + 1) c := by
  obtain ⟨n, hg, hpn⟩ := parentOf_eq_some hp
  have hic : i < c := h.parent_lt hg hpn
  rw [chainList_succ, hp]
  dsimp only
  rw [chainList_stable h i c hic]
  exact List.mem_cons_of_mem _ (chain_self s i)

theorem chain_extend {s : VFS} {root : NodeId} (h : WF s root) :
    ∀ x c, c ∈ chainList s (x + 1) x →
      ∀ z ∈ chainList s (c + 1) c, z ∈ chainList s (x + 1) x := by
  intro x
  induction x using Nat.strong_induction_on with
  | _ x ih =>
    intro c hc z hz
    rw [chainList_succ] at hc ⊢
    rcases List.mem_cons.1 hc with rfl | hc2
    · rw [chainList_succ] at hz
      exact hz
    · rcases hp : parentOf s x with _ | p <;> simp only [hp] at hc2 ⊢
      · simp at hc2
      · obtain ⟨n, hg, hpn⟩ := parentOf_eq_some hp
        have hpx : p < x := h.parent_lt hg hpn
        rw [chainList_stable h p x hpx] at hc2 ⊢
        exact List.mem_cons_of_mem _ (ih p hpx c hc2 z hz)

theorem chain_two_children {s : VFS} {root : NodeId} (h : WF s root) :
    ∀ x c1 c2 i, c1 ∈ chainList s (x + 1) x → c2 ∈ chainList s (x + 1) x →
      parentOf s c1 = some i → parentOf s c2 = some i → c1 = c2 := by
  intro x
  induction x using Nat.strong_induction_on with
  | _ x ih =>
    intro c1 c2 i hc1 hc2 hp1 hp2
    rw [chainList_succ] at hc1 hc2
    rcases hp : parentOf s x with _ | p <;> simp only [hp] at hc1 hc2
    · simp at hc1 hc2
      rw [hc1, hc2]
    · obtain ⟨n, hg, hpn⟩ := parentOf_eq_some hp
      have hpx : p < x := h.parent_lt hg hpn
      rw [chainList_stable h p x hpx] at hc1 hc2
      rcases List.mem_cons.1 hc1 with rfl | hc1' <;> rcases List.mem_cons.1 hc2 with rfl | hc2'
      · rfl
      · exfalso
        obtain rfl : p = i := by
          rw [hp] at hp1
          exact Option.some.inj hp1
        have hle : c2 ≤ p := chain_mem_le h p c2 hc2'
        obtain ⟨n2, hg2, hpn2⟩ := parentOf_eq_some hp2
        exact Nat.lt_irrefl c2 (Nat.lt_of_le_of_lt hle (h.parent_lt hg2 hpn2))
      · exfalso
        obtain rfl : p = i := by
          rw [hp] at hp2
          exact Option.some.inj hp2
        have hle : c1 ≤ p := chain_mem_le h p c1 hc1'
        obtain ⟨n1, hg1, hpn1⟩ := parentOf_eq_some hp1
        exact Nat.lt_irrefl c1 (Nat.lt_of_le_of_lt hle (h.parent_lt hg1 hpn1))
      · exact ih p hpx c1 c2 i hc1' hc2' hp1 hp2

/-- Ids of the entries of a well-formed directory are distinct. -/
theorem entries_snd_nodup {s : VFS} {root : NodeId} (h : WF s root) {i : NodeId}
    {nm : String} {pr : Option Nat} {cs : List (String × Nat)}
    (hg : s.get? i = some ⟨nm, pr, .dir cs⟩) : (cs.map Prod.snd).Nodup := by
  have hk := h.keys_nodup hg
  have hcs : cs.Nodup := List.Nodup.of_map Prod.fst hk
  refine List.Nodup.map_on ?_ hcs
  intro x hx y hy hxy
  obtain ⟨_, _, cnx, hgx, hpx, hnx⟩ := h.entry_spec hg hx
  obtain ⟨_, _, cny, hgy, hpy, hny⟩ := h.entry_spec hg hy
  have hcn : cnx = cny := by
    rw [hxy] at hgx
    rw [hgx] at hgy
    exact Option.some.inj hgy
  refine Prod.ext ?_ hxy
  rw [← hnx, ← hny, hcn]

/-- A child entry's node has the owning directory as its parent (in
`parentOf` form). -/
theorem entry_parentOf {s : VFS} {root : NodeId} (h : WF s root) {i : NodeId}
    {nm : String} {pr : Option Nat} {cs : List (String × Nat)}
    (hg : s.get? i = some ⟨nm, pr, .dir cs⟩) {e : String × Nat} (he : e ∈ cs) :
    parentOf s e.2 = some i := by
  obtain ⟨_, _, cn, hgc, hpc, _⟩ := h.entry_spec hg he
  rw [parentOf, hgc]
  exact hpc

/-- Pre-order visit lists with no depth ceiling: distinct ids, all ids in
the subtree (at or below the start, with the start on their parent
chain). -/
theorem preOne_ids_nodup {s : VFS} {root : NodeId} (h : WF s root) :
    ∀ k i, s.size - i ≤ k → ∀ d, i < s.size →
      ((preOne s none (i, d)).map Prod.fst).Nodup ∧
      ∀ x ∈ (preOne s none (i, d)).map Prod.fst, i ≤ x ∧ i ∈ chainList s (x + 1) x := by
  intro k
  induction k using Nat.strong_induction_on with
  | _ k ih =>
    intro i hk d hi
    rcases hgI : s.get? i with _ | ⟨nm, pr, cs | cc⟩
    · rw [preOne_leaf (Or.inr (Or.inr hgI))]
      exact ⟨by simp, by
        intro x hx
        simp only [List.map_cons, List.map_nil, List.mem_singleton] at hx
        subst hx
        exact ⟨Nat.le_refl _, chain_self s x⟩⟩
    · have hpre := preOne_dir h hgI (rfl : depthOpen none d = true)
      rw [hpre]
      have hsnd : ((walkPushOrder cs).reverse.map Prod.snd).Nodup := by
        rw [List.map_reverse, List.nodup_reverse]
        exact ((List.perm_insertionSort childGe cs).map Prod.snd).nodup_iff.2
          (entries_snd_nodup h hgI)
      have hmemc : ∀ e ∈ (walkPushOrder cs).reverse, e ∈ cs := fun e he =>
        mem_walkPushOrder he
      have hchild : ∀ e ∈ (walkPushOrder cs).reverse,
          i < e.2 ∧ e.2 < s.size ∧ parentOf s e.2 = some i := by
        intro e he
        obtain ⟨h1, h2, _⟩ := h.entry_spec hgI (hmemc e he)
        exact ⟨h1, h2, entry_parentOf h hgI (hmemc e he)⟩
      have hih : ∀ e ∈ (walkPushOrder cs).reverse,
          ((preOne s none (e.2, d + 1)).map Prod.fst).Nodup ∧
          ∀ x ∈ (preOne s none (e.2, d + 1)).map Prod.fst,
            e.2 ≤ x ∧ e.2 ∈ chainList s (x + 1) x := by
        intro e he
        obtain ⟨h1, h2, _⟩ := hchild e he
        have hd1 : s.size - e.2 < s.size - i := Nat.sub_lt_sub_left hi h1
        exact ih (s.size - e.2) (by omega) e.2 (Nat.le_refl _) (d + 1) h2
      constructor
      · rw [List.map_cons, List.nodup_cons]
        constructor
        · -- the directory itself is not among the children's subtrees
          intro hmem
          rw [List.map_flatMap] at hmem
          obtain ⟨p, hp, hxin⟩ := List.mem_flatMap.1 hmem
          obtain ⟨e0, he0, rfl⟩ := List.mem_map.1 hp
          have hle := ((hih e0 he0).2 i hxin).1
          exact Nat.lt_irrefl i (Nat.lt_of_lt_of_le (hchild e0 he0).1 hle)
        · rw [List.map_flatMap, List.nodup_flatMap]
          constructor
          · intro p hp
            obtain ⟨e0, he0, rfl⟩ := List.mem_map.1 hp
            exact (hih e0 he0).1
          · -- pairwise disjoint subtrees
            have hpw : ((walkPushOrder cs).reverse.map (fun e => (e.2, d + 1))).Pairwise
                (fun p q => p.1 ≠ q.1) := by
              rw [List.pairwise_map]
              have : ((walkPushOrder cs).reverse.map Prod.snd).Pairwise (· ≠ ·) :=
                List.Pairwise.imp (by intro a b hab; exact hab) hsnd
              rw [List.pairwise_map] at this
              exact this
            refine List.Pairwise.imp_of_mem ?_ hpw
            intro p q hp hq hne
            obtain ⟨ep, hep, rfl⟩ := List.mem_map.1 hp
            obtain ⟨eq0, heq0, rfl⟩ := List.mem_map.1 hq
            intro x hxp hxq
            have h1 := ((hih ep hep).2 x hxp).2
            have h2 := ((hih eq0 heq0).2 x hxq).2
            exact hne (chain_two_children h x ep.2 eq0.2 i h1 h2
              (hchild ep hep).2.2 (hchild eq0 heq0).2.2)
      · intro x hx
        rw [List.map_cons] at hx
        rcases List.mem_cons.1 hx with rfl | hx2
        · exact ⟨Nat.le_refl _, chain_self s x⟩
        · rw [List.map_flatMap] at hx2
          obtain ⟨p, hp, hxin⟩ := List.mem_flatMap.1 hx2
          obtain ⟨e0, he0, rfl⟩ := List.mem_map.1 hp
          obtain ⟨hle, hchain⟩ := (hih e0 he0).2 x hxin
          obtain ⟨hilt, _, hpar⟩ := hchild e0 he0
          refine ⟨Nat.le_trans (Nat.le_of_lt hilt) hle, ?_⟩
          exact chain_extend h x e0.2 hchain i (chain_parent_mem h hpar)
    · rw [preOne_leaf (Or.inr (Or.inl ⟨nm, pr, cc, hgI⟩))]
      exact ⟨by simp, by
        intro x hx
        simp only [List.map_cons, List.map_nil, List.mem_singleton] at hx
        subst hx
        exact ⟨Nat.le_refl _, chain_self s x⟩⟩

/-! ### C3: the claim -/

/-- C3: `_walk_vfs` equals the specification pre-order: a finite
depth-first pre-order sequence of `(node, depth)` pairs that starts with
`(start, 0)`, visits a directory's children in case-insensitive
lexicographic order (the visit order is sorted under `childLe`), enqueues
children only while the directory's own depth is strictly below the
ceiling (`preWalk`'s guard), and with no ceiling visits each node of the
subtree exactly once (distinct ids). -/
theorem walkVfs_preorder (s : VFS) (root start : NodeId) (maxdepth : Option Nat)
    (fuel : Nat) (h : WF s root) (hs : start < s.size)
    (hf : (preOne s maxdepth (start, 0)).length ≤ fuel) :
    walkVfs s start maxdepth fuel = preWalk s maxdepth s.size start 0 ∧
    (∃ t, walkVfs s start maxdepth fuel = (start, 0) :: t) ∧
    (maxdepth = none → ((walkVfs s start maxdepth fuel).map Prod.fst).Nodup) ∧
    (∀ cs : List (String × Nat), ((walkPushOrder cs).reverse).Sorted childLe) := by
  have hc1 : walkVfs s start maxdepth fuel = preWalk s maxdepth s.size start 0 := by
    rw [walkVfs, walkLoop_flatten h fuel [(start, 0)] ?_ ?_]
    · rw [List.flatMap_cons]
      simp only [List.flatMap_nil, List.append_nil]
      rfl
    · intro e he
      simp only [List.mem_singleton] at he
      subst he
      exact hs
    · simpa using hf
  refine ⟨hc1, ?_, ?_, ?_⟩
  · obtain ⟨g, hg⟩ : ∃ g, s.size = g + 1 :=
      ⟨s.size - 1, (Nat.succ_pred_eq_of_pos (Nat.lt_of_le_of_lt (Nat.zero_le start) hs)).symm⟩
    exact ⟨_, by rw [hc1, hg, preWalk_succ]⟩
  · intro hnone
    subst hnone
    rw [hc1]
    exact (preOne_ids_nodup h s.size start (by omega) 0 hs).1
  · intro cs
    show List.Pairwise childLe ((walkPushOrder cs).reverse)
    rw [List.pairwise_reverse]
    exact List.sorted_insertionSort childGe cs

/-- C3 witness: the stack walk on a concrete two-node tree equals the
pre-order and visits distinct nodes. -/
theorem walkVfs_preorder_witness :
    walkVfs vfsA 0 none 10 = preWalk vfsA none vfsA.size 0 0 ∧
    ((walkVfs vfsA 0 none 10).map Prod.fst).Nodup :=
  ⟨(walkVfs_preorder vfsA 0 0 none 10 (by decide) (by decide) (by decide)).1,
   (walkVfs_preorder vfsA 0 0 none 10 (by decide) (by decide) (by decide)).2.2.1 rfl⟩

/-! ### Copy machinery: heap update effects and WF preservation -/

theorem VFS.get?_of_lt {s : VFS} {j : NodeId} (h : j < s.size) :
    ∃ n, s.get? j = some n := by
  rcases hg : s.get? j with _ | n
  · rw [VFS.get?, List.get?_eq_none] at hg
    rw [VFS.size] at h
    exact absurd h (Nat.not_lt.mpr hg)
  · exact ⟨n, rfl⟩

theorem mem_setChild {cs : List (String × Nat)} {n : String} {i : Nat} :
    ∀ {e}, e ∈ setChild cs n i → e ∈ cs ∨ e = (n, i) := by
  induction cs with
  | nil =>
    intro e he
    rw [setChild] at he
    simp at he
    exact Or.inr he
  | cons kv rest ih =>
    intro e he
    obtain ⟨k, v⟩ := kv
    rw [setChild] at he
    by_cases hk : k = n
    · rw [if_pos hk] at he
      rcases List.mem_cons.1 he with rfl | h2
      · exact Or.inr rfl
      · exact Or.inl (List.mem_cons_of_mem _ h2)
    · rw [if_neg hk] at he
      rcases List.mem_cons.1 he with rfl | h2
      · exact Or.inl (List.mem_cons_self _ _)
      · rcases ih h2 with h3 | h3
        · exact Or.inl (List.mem_cons_of_mem _ h3)
        · exact Or.inr h3

theorem entryOK_intro {s : VFS} {i : NodeId} {e : String × Nat} {cn : VNode}
    (h1 : i < e.2) (h2 : e.2 < s.size) (h3 : s.get? e.2 = some cn)
    (h4 : cn.parent = some i) (h5 : cn.name = e.1) : entryOK s i e = true := by
  rw [entryOK, h3]
  simp [h1, h2, h4, h5]

theorem nodeOK_intro {s : VFS} {root i : NodeId}
    (hyp : ∀ n, s.get? i = some n →
      parentFieldOK root i n.parent = true ∧
      (∀ cs, n.data = .dir cs →
        (cs.map Prod.fst).Nodup ∧ ∀ e ∈ cs, entryOK s i e = true)) :
    nodeOK s root i = true := by
  rw [nodeOK]
  rcases hg : s.get? i with _ | n
  · rfl
  · obtain ⟨h1, h2⟩ := hyp n hg
    rcases hd : n.data with cs | c <;> simp only [hd]
    · obtain ⟨h3, h4⟩ := h2 cs hd
      simp [h1, h3, List.all_eq_true.2 h4]
    · simp [h1]

/-- The common update shape of `add_dir`/`add_file`: allocate a fresh
child of `d` and update `d`'s dictionary.  `parentOf` is unchanged at all
old ids (including `d`, whose name and parent fields are preserved). -/
theorem parentOf_update {s : VFS} {d : NodeId} {dn : String} {dp : Option Nat}
    {cs : List (String × Nat)} (hd : s.get? d = some ⟨dn, dp, .dir cs⟩)
    (x : VNode) (cs2 : List (String × Nat)) {j : NodeId} (hj : j < s.size) :
    parentOf ((s.alloc x).1.setNode d ⟨dn, dp, .dir cs2⟩) j = parentOf s j := by
  by_cases hjd : j = d
  · subst hjd
    rw [parentOf, get?_after_update x _ (VFS.get?_lt_size hd), parentOf, hd]
  · rw [parentOf, get?_old_after_update x _ hj hjd, parentOf]

theorem parentOf_update_fresh {s : VFS} {d : NodeId} (hd : d < s.size)
    (nm : String) (pl : VData) (rec : VNode) :
    parentOf ((s.alloc ⟨nm, some d, pl⟩).1.setNode d rec) s.size = some d := by
  rw [parentOf, get?_fresh_after_update _ _ hd]

/-- Well-formedness is preserved by the update shape (stated against an
abstract post-state characterized by its reads), when the fresh payload
carries no children. -/
theorem update_wf {s s1 : VFS} {root d : NodeId} {n : String}
    {dn : String} {dp : Option Nat} {cs : List (String × Nat)}
    (h : WF s root) (hd : s.get? d = some ⟨dn, dp, .dir cs⟩) {payload : VData}
    (hpl : ∀ l, payload = .dir l → l = [])
    (hsz : s1.size = s.size + 1)
    (hget_d : s1.get? d = some ⟨dn, dp, .dir (setChild cs n s.size)⟩)
    (hget_fresh : s1.get? s.size = some ⟨n, some d, payload⟩)
    (hget_old : ∀ j, j < s.size → j ≠ d → s1.get? j = s.get? j) :
    WF s1 root := by
  have hdlt : d < s.size := VFS.get?_lt_size hd
  have hroot : root < s.size := h.size_pos
  refine ⟨?_, ?_, ?_, ?_⟩
  · rw [hsz]
    exact Nat.lt_succ_of_lt hroot
  · by_cases hrd : root = d
    · subst hrd
      rw [parentOf, hget_d]
      have h2 := h.2.1
      rw [parentOf, hd] at h2
      exact h2
    · rw [parentOf, hget_old root hroot hrd]
      have h2 := h.2.1
      rw [parentOf] at h2
      exact h2
  · by_cases hrd : root = d
    · subst hrd
      rw [isDirAt, hget_d]
      trivial
    · rw [isDirAt, hget_old root hroot hrd]
      exact h.2.2.1
  · intro i hi
    apply nodeOK_intro
    intro m hm
    by_cases hid : i = d
    · subst hid
      rw [hget_d] at hm
      obtain rfl := Option.some.inj hm
      constructor
      · have hok := h.nodeOK_at hd
        rw [nodeOK, hd] at hok
        simp only [Bool.and_eq_true] at hok
        exact hok.1
      · intro cs2 hcs2
        obtain rfl : setChild cs n s.size = cs2 := by injection hcs2
        constructor
        · rcases hlk : lookupChild cs n with _ | c
          · rw [keys_setChild_new cs n s.size hlk]
            have hnd := h.keys_nodup hd
            have hnm := (lookupChild_eq_none_iff cs n).1 hlk
            simp [List.nodup_append, hnd, hnm]
          · rw [keys_setChild_mem cs n s.size (by rw [hlk]; simp)]
            exact h.keys_nodup hd
        · intro e he
          rcases mem_setChild he with hold | rfl
          · obtain ⟨h1, h2, cn, hgc, hpc, hnc⟩ := h.entry_spec hd hold
            refine entryOK_intro h1 ?_ ?_ hpc hnc
            · rw [hsz]
              exact Nat.lt_succ_of_lt h2
            · rw [hget_old e.2 h2 (Nat.ne_of_gt h1)]
              exact hgc
          · exact entryOK_intro hdlt (by omega) hget_fresh rfl rfl
    · by_cases hif : i = s.size
      · subst hif
        rw [hget_fresh] at hm
        obtain rfl := Option.some.inj hm
        constructor
        · simp [parentFieldOK, hdlt]
        · intro cs2 hcs2
          obtain rfl : cs2 = [] := (hpl cs2 hcs2).symm ▸ rfl
          exact ⟨List.nodup_nil, by simp⟩
      · have hilt : i < s.size := by omega
        rw [hget_old i hilt hid] at hm
        have hok := h.nodeOK_at hm
        rw [nodeOK, hm] at hok
        simp only [Bool.and_eq_true] at hok
        refine ⟨hok.1, ?_⟩
        intro cs2 hcs2
        have hok2 := hok.2
        simp only [hcs2, Bool.and_eq_true, decide_eq_true_eq, List.all_eq_true] at hok2
        refine ⟨hok2.1, ?_⟩
        intro e he
        have hold := hok2.2 e he
        rw [entryOK] at hold
        simp only [Bool.and_eq_true, decide_eq_true_eq] at hold
        obtain ⟨⟨h1, h2⟩, h3⟩ := hold
        rcases hgc : s.get? e.2 with _ | cn <;> rw [hgc] at h3
        · exact absurd h3 (by simp)
        · simp only [Bool.and_eq_true, decide_eq_true_eq] at h3
          by_cases hed : e.2 = d
          · subst hed
            rw [hd] at hgc
            obtain rfl := Option.some.inj hgc
            exact entryOK_intro h1 (by omega) hget_d h3.1 h3.2
          · refine entryOK_intro h1 (by omega) ?_ h3.1 h3.2
            rw [hget_old e.2 h2 hed]
            exact hgc

/-- Parent chains are preserved by any state change that keeps `parentOf`
at all old ids (the heap may grow). -/
theorem chainList_frame {s s2 : VFS} {root : NodeId} (h : WF s root)
    (hpar : ∀ j, j < s.size → parentOf s2 j = parentOf s j) :
    ∀ f x, x < s.size → chainList s2 f x = chainList s f x := by
  intro f
  induction f with
  | zero => intro x _; rfl
  | succ f ih =>
    intro x hx
    rw [chainList_succ, chainList_succ, hpar x hx]
    rcases hp : parentOf s x with _ | p <;> simp only
    obtain ⟨m, hgm, hpm⟩ := parentOf_eq_some hp
    rw [ih p (by have := h.parent_lt hgm hpm; omega)]

/-! ### Copy machinery: list, sorting and extraction support -/

theorem setChild_append {cs : List (String × Nat)} {n : String} {i : Nat}
    (h : lookupChild cs n = none) : setChild cs n i = cs ++ [(n, i)] := by
  induction cs with
  | nil => rfl
  | cons e rest ih =>
    obtain ⟨k, v⟩ := e
    rw [lookupChild] at h
    by_cases hk : k = n
    · rw [if_pos hk] at h
      exact absurd h (by simp)
    · rw [if_neg hk] at h
      rw [setChild, if_neg hk, ih h, List.cons_append]

theorem chain_mem_full {s : VFS} {root : NodeId} (h : WF s root) :
    ∀ x f a, a ∈ chainList s f x → a ∈ chainList s (x + 1) x := by
  intro x
  induction x using Nat.strong_induction_on with
  | _ x ih =>
    intro f a ha
    match f with
    | 0 =>
      rw [chainList_zero] at ha
      simp at ha
      rw [ha]
      exact chain_self s x
    | g + 1 =>
      rw [chainList_succ] at ha
      rcases List.mem_cons.1 ha with rfl | ha2
      · exact chain_self s a
      · rcases hp : parentOf s x with _ | p <;> simp only [hp] at ha2
        · simp at ha2
        · obtain ⟨n, hg, hpn⟩ := parentOf_eq_some hp
          have hpx : p < x := h.parent_lt hg hpn
          exact chain_extend h x p (chain_parent_mem h hp) a (ih p hpx g a ha2)

theorem isDirAt_record {s : VFS} {i : NodeId} (h : isDirAt s i) :
    ∃ nm pp cs, s.get? i = some ⟨nm, pp, VData.dir cs⟩ := by
  rw [isDirAt] at h
  rcases hg : s.get? i with _ | ⟨nm, pp, cs | c⟩ <;> simp only [hg] at h
  · exact ⟨nm, pp, cs, rfl⟩

theorem extract_zero (s : VFS) (i : NodeId) : extract s 0 i = none := rfl

theorem extract_succ (s : VFS) (F : Nat) (i : NodeId) :
    extract s (F + 1) i =
      match s.get? i with
      | some ⟨_, _, .file c⟩ => some (.f c)
      | some ⟨_, _, .dir cs⟩ =>
        ((sortedChildren cs).mapM
          (fun e => (extract s F e.2).map (fun t => (e.1, t)))).map .d
      | none => none := rfl

theorem mapM_congr_mem {α β : Type} {f g : α → Option β} :
    ∀ {l : List α}, (∀ a ∈ l, f a = g a) → l.mapM f = l.mapM g := by
  intro l
  induction l with
  | nil => intro _; rfl
  | cons a l ih =>
    intro h
    simp only [List.mapM_cons, h a (List.mem_cons_self a l),
      ih (fun b hb => h b (List.mem_cons_of_mem a hb))]

theorem mapM_eq_of_forall₂ {α β γ : Type} {f : β → Option γ} {g : α → Option γ} :
    ∀ {l1 : List α} {l2 : List β},
      List.Forall₂ (fun a b => f b = g a) l1 l2 → l2.mapM f = l1.mapM g := by
  intro l1 l2 h
  induction h with
  | nil => rfl
  | cons hab htail ih => simp only [List.mapM_cons, hab, ih]

theorem forall₂_imp_mem {α β : Type} {R S : α → β → Prop} :
    ∀ {l1 : List α} {l2 : List β}, List.Forall₂ R l1 l2 →
      (∀ a b, a ∈ l1 → R a b → S a b) → List.Forall₂ S l1 l2 := by
  intro l1 l2 h
  induction h with
  | nil => intro _; exact List.Forall₂.nil
  | cons hab htail ih =>
    intro himp
    exact List.Forall₂.cons
      (himp _ _ (List.mem_cons_self _ _) hab)
      (ih (fun a b ha hr => himp a b (List.mem_cons_of_mem _ ha) hr))

theorem forall₂_keys {α β : Type} {R : (String × α) → (String × β) → Prop} :
    ∀ {l1 : List (String × α)} {l2 : List (String × β)},
      List.Forall₂ R l1 l2 → (∀ a b, R a b → b.1 = a.1) →
      l2.map Prod.fst = l1.map Prod.fst := by
  intro l1 l2 h
  induction h with
  | nil => intro _; rfl
  | cons hab htail ih =>
    intro hfst
    simp only [List.map_cons, hfst _ _ hab, ih hfst]

theorem pairwise_childLe_of_keys {l1 l2 : List (String × Nat)}
    (hk : l2.map Prod.fst = l1.map Prod.fst)
    (hs : List.Pairwise childLe l1) : List.Pairwise childLe l2 := by
  have h1 : (l1.map Prod.fst).Pairwise (fun a b : String => a.toLower ≤ b.toLower) :=
    (List.pairwise_map).2 (hs.imp (fun h => h))
  rw [← hk] at h1
  exact ((List.pairwise_map).1 h1).imp (fun h => h)

theorem sortedChildren_sorted (l : List (String × Nat)) :
    List.Pairwise childLe (sortedChildren l) :=
  List.sorted_insertionSort childLe l

theorem sortedChildren_eq_self {l : List (String × Nat)}
    (hs : List.Pairwise childLe l) : sortedChildren l = l :=
  List.Sorted.insertionSort_eq hs

theorem mem_sortedChildren {l : List (String × Nat)} {e : String × Nat} :
    e ∈ sortedChildren l ↔ e ∈ l :=
  (List.perm_insertionSort childLe l).mem_iff

theorem sortedChildren_keys_nodup {l : List (String × Nat)}
    (h : (l.map Prod.fst).Nodup) : ((sortedChildren l).map Prod.fst).Nodup :=
  (List.Perm.nodup_iff ((List.perm_insertionSort childLe l).map Prod.fst)).2 h

/-- Extraction only reads the subtree below `x`: any heap change confined
to `M` (with `M` outside that subtree) and to fresh ids is invisible. -/
theorem extract_frame {s s2 : VFS} {root M : NodeId} (h : WF s root)
    (hget : ∀ j, j < s.size → j ≠ M → s2.get? j = s.get? j) :
    ∀ F x, x < s.size → x ∉ chainList s (M + 1) M →
      extract s2 F x = extract s F x := by
  intro F
  induction F with
  | zero => intro x _ _; rfl
  | succ F ih =>
    intro x hx hM
    have hxM : x ≠ M := by
      intro hxe
      subst hxe
      exact hM (chain_self s x)
    rw [extract_succ, extract_succ, hget x hx hxM]
    rcases hg : s.get? x with _ | ⟨nm, pp, cs | c⟩
    · rfl
    · dsimp only
      have hpt : ∀ e ∈ sortedChildren cs,
          (extract s2 F e.2).map (fun t => (e.1, t)) =
          (extract s F e.2).map (fun t => (e.1, t)) := by
        intro e he
        obtain ⟨hlt, hsz, cn, hgc, hpc, hnc⟩ :=
          h.entry_spec hg (mem_sortedChildren.1 he)
        have hpe : parentOf s e.2 = some x := by
          rw [parentOf, hgc]
          exact hpc
        have hnc2 : e.2 ∉ chainList s (M + 1) M := by
          intro he2
          exact hM (chain_extend h M e.2 he2 x (chain_parent_mem h hpe))
        rw [ih e.2 hsz hnc2]
      rw [mapM_congr_mem hpt]
    · rfl


theorem copyChildren_nil (fuel : Nat) (s : VFS) (newDir : NodeId) :
    copyChildren fuel s newDir [] = (s, .ok ()) := rfl

theorem copyChildren_cons (fuel : Nat) (s : VFS) (newDir : NodeId)
    (childName : String) (child : Nat) (rest : List (String × Nat)) :
    copyChildren fuel s newDir ((childName, child) :: rest) =
      match copyRecursive fuel s child newDir childName with
      | (s1, .ok _) => copyChildren fuel s1 newDir rest
      | (s1, .error e) => (s1, .error e) := rfl

theorem copyRecursive_zero (s : VFS) (src dstP : NodeId) (name : String) :
    copyRecursive 0 s src dstP name = (s, .error .recursionError) := rfl

theorem copyRecursive_succ (fuel : Nat) (s : VFS) (src dstP : NodeId) (name : String) :
    copyRecursive (fuel + 1) s src dstP name =
      match s.get? src with
      | some ⟨_, _, .file content⟩ =>
        (match addFile s dstP name content with
         | (s1, .ok _) => (s1, .ok ())
         | (s1, .error e) => (s1, .error e))
      | some ⟨_, _, .dir _⟩ =>
        if (dirGet s dstP name).isSome then (s, .error .alreadyExists)
        else
          (match addDir s dstP name with
           | (s1, .error e) => (s1, .error e)
           | (s1, .ok newDir) =>
             copyChildren fuel s1 newDir (sortedChildren (dirChildren s1 src)))
      | none => (s, .error .badState) := rfl

/-- One level of the copy induction: the child-copying loop satisfies
its contract whenever the nested `_copy_recursive` calls satisfy theirs
at the same fuel. -/
theorem copyChildren_spec_of (root B : NodeId) (fuel : Nat)
    (hCR : copyRecSpec root B fuel) : copyChildSpec root B fuel := by
  rw [copyChildSpec]
  intro s1 newDir items
  induction items generalizing s1 with
  | nil =>
    intro s2 r h hBn hnds hdir hitems hkeys heq
    rw [copyChildren_nil, Prod.mk.injEq] at heq
    obtain ⟨rfl, hr⟩ := heq
    refine ⟨h, Nat.le_refl _, fun j _ _ => rfl, fun j _ => rfl, hr.symm, ?_, ?_⟩
    · intro nm pp cs0 hrec
      exact ⟨[], by rw [List.append_nil]; exact hrec, List.Forall₂.nil⟩
    · intro j hj1 hj2 f a hmem
      exact absurd hj2 (by omega)
  | cons it rest ih =>
    intro s2 r h hBn hnds hdir hitems hkeys heq
    obtain ⟨childName, child⟩ := it
    rw [copyChildren_cons] at heq
    obtain ⟨hcB, hcsub, hcnot, hcfuel, hcfree⟩ :=
      hitems (childName, child) (List.mem_cons_self _ _)
    obtain ⟨nm, pp, cs0, hrec⟩ := isDirAt_record hdir
    have hcs0 : dirChildren s1 newDir = cs0 := by rw [dirChildren, hrec]
    have hfree0 : lookupChild cs0 childName = none := by
      rw [← hcs0]
      exact hcfree
    rcases hcall : copyRecursive fuel s1 child newDir childName with ⟨sm, rh⟩
    have hH := hCR s1 child newDir childName sm rh h hcB
      (Nat.le_of_lt (Nat.lt_of_le_of_lt hBn hnds)) hcsub hnds hdir hcnot hcfuel hcall
    obtain ⟨hWm, hszm, hfm, hpm, herrm, hokm, hsuccm, hchm⟩ := hH
    have hrh : rh = Except.ok () := hokm hcfree
    subst hrh
    rw [hcall] at heq
    dsimp only at heq
    obtain ⟨hrecm, hparm, hextm⟩ := hsuccm rfl
    have hrecm2 : sm.get? newDir =
        some ⟨nm, pp, VData.dir (setChild cs0 childName s1.size)⟩ :=
      hrecm nm pp cs0 hrec
    have happ : setChild cs0 childName s1.size = cs0 ++ [(childName, s1.size)] :=
      setChild_append hfree0
    have hfreshlt : s1.size < sm.size := by
      obtain ⟨n0, hg0, _⟩ := parentOf_eq_some hparm
      exact VFS.get?_lt_size hg0
    have hchainfm : ∀ f j, j < s1.size → chainList sm f j = chainList s1 f j :=
      fun f j hj => chainList_frame h hpm f j hj
    have hdirm : isDirAt sm newDir := by
      rw [isDirAt, hrecm2]
      trivial
    have hdcm : dirChildren sm newDir = setChild cs0 childName s1.size := by
      rw [dirChildren, hrecm2]
    simp only [List.map_cons, List.nodup_cons] at hkeys
    have hitems2 : ∀ e, e ∈ rest → e.2 < B ∧
        (∀ j, j < sm.size → e.2 ∈ chainList sm (j + 1) j → j < B) ∧
        e.2 ∉ chainList sm (newDir + 1) newDir ∧
        B ≤ e.2 + fuel ∧
        lookupChild (dirChildren sm newDir) e.1 = none := by
      intro e he
      obtain ⟨heB, hesub, henot, hefuel, hefree⟩ :=
        hitems e (List.mem_cons_of_mem _ he)
      have hes1 : e.2 < s1.size := Nat.lt_of_lt_of_le heB
        (Nat.le_of_lt (Nat.lt_of_le_of_lt hBn hnds))
      refine ⟨heB, ?_, ?_, hefuel, ?_⟩
      · intro j hj hchain
        by_cases hjold : j < s1.size
        · exact hesub j hjold (by rw [← hchainfm (j + 1) j hjold]; exact hchain)
        · exfalso
          have hj1 : s1.size ≤ j := Nat.le_of_not_lt hjold
          rcases hchm j hj1 hj (j + 1) e.2 hchain with hge | hmem
          · exact absurd hge (by omega)
          · exact henot hmem
      · intro hmem
        exact henot (by rw [← hchainfm (newDir + 1) newDir hnds]; exact hmem)
      · have hne : e.1 ≠ childName := by
          intro hek
          exact hkeys.1 (hek ▸ List.mem_map_of_mem Prod.fst he)
        rw [hdcm, lookupChild_setChild_other cs0 childName e.1 s1.size hne, ← hcs0]
        exact hefree
    have hrest := ih sm s2 r hWm hBn (Nat.lt_of_lt_of_le hnds hszm) hdirm hitems2
      hkeys.2 heq
    obtain ⟨hW2, hsz2, hf2, hp2, hr2, hB6, hB7⟩ := hrest
    refine ⟨hW2, Nat.le_trans hszm hsz2, ?_, ?_, hr2, ?_, ?_⟩
    · intro j hj hjn
      rw [hf2 j (Nat.lt_of_lt_of_le hj hszm) hjn, hfm j hj hjn]
    · intro j hj
      rw [hp2 j (Nat.lt_of_lt_of_le hj hszm), hpm j hj]
    · intro nm2 pp2 cs2 hrec2
      rw [hrec] at hrec2
      injection hrec2 with hv
      injection hv with ha hb hc
      injection hc with hcs
      subst ha
      subst hb
      subst hcs
      obtain ⟨news2, hrecEnd, hfa⟩ :=
        hB6 nm pp (setChild cs0 childName s1.size) hrecm2
      refine ⟨(childName, s1.size) :: news2, ?_, ?_⟩
      · rw [hrecEnd, happ, List.append_assoc]
        rfl
      · refine List.Forall₂.cons ⟨rfl, ?_⟩ ?_
        · intro F
          have h1 : extract s2 F s1.size = extract sm F s1.size := by
            refine extract_frame hWm hf2 F s1.size hfreshlt ?_
            intro hmem
            exact absurd (chain_mem_le hWm newDir s1.size hmem) (Nat.not_le.mpr hnds)
          rw [h1, hextm F]
        · refine forall₂_imp_mem hfa ?_
          intro a b ha hr2b
          obtain ⟨hb1, hbext⟩ := hr2b
          refine ⟨hb1, ?_⟩
          intro F
          obtain ⟨haB, hasub, hanot, _, _⟩ := hitems a (List.mem_cons_of_mem _ ha)
          have has1 : a.2 < s1.size := Nat.lt_of_lt_of_le haB
            (Nat.le_of_lt (Nat.lt_of_le_of_lt hBn hnds))
          rw [hbext F]
          exact extract_frame h hfm F a.2 has1 hanot
    · intro j hj1 hj2 f a hmem
      by_cases hjm : j < sm.size
      · rw [chainList_frame hWm hp2 f j hjm] at hmem
        rcases hchm j hj1 hjm f a hmem with hge | hmem2
        · exact Or.inl hge
        · exact Or.inr hmem2
      · rcases hB7 j (Nat.le_of_not_lt hjm) hj2 f a hmem with hge | hmem2
        · exact Or.inl (Nat.le_trans hszm hge)
        · right
          rw [← hchainfm (newDir + 1) newDir hnds]
          exact hmem2

/-- Base case of the copy induction: with no fuel the bound hypotheses
are contradictory, so the contract holds vacuously. -/
theorem copyRecSpec_zero (root B : NodeId) : copyRecSpec root B 0 := by
  rw [copyRecSpec]
  intro s src dstP name s' r h hsrc hB hsub hdst hdir hout hfuel heq
  exact absurd (Nat.lt_of_lt_of_le hsrc hfuel) (Nat.lt_irrefl src)

/-- The other level of the copy induction: `_copy_recursive` satisfies
its contract at `fuel + 1` whenever the child loop satisfies its
contract at `fuel`. -/
theorem copyRecursive_spec_of (root B : NodeId) (fuel : Nat)
    (hCC : copyChildSpec root B fuel) : copyRecSpec root B (fuel + 1) := by
  rw [copyRecSpec]
  intro s src dstP name s' r h hsrc hB hsub hdst hdir hout hfuel heq
  have hsrcex : src < s.size := Nat.lt_of_lt_of_le hsrc hB
  have hsrcne : src ≠ dstP := by
    intro hE
    exact hout (by rw [hE]; exact chain_self s dstP)
  obtain ⟨dn, dp, cs, hdrec⟩ := isDirAt_record hdir
  rw [copyRecursive_succ] at heq
  rcases hgs : s.get? src with _ | ⟨sn, spr, scs | sc⟩
  · obtain ⟨n0, hn0⟩ := VFS.get?_of_lt hsrcex
    rw [hgs] at hn0
    exact absurd hn0 (by simp)
  · -- source is a directory
    rw [hgs] at heq
    dsimp only at heq
    rcases hex : dirGet s dstP name with _ | c
    · -- destination name free: add the directory and run the loop
      rw [hex, if_neg (by simp)] at heq
      have hlk : lookupChild cs name = none := by
        have h2 := hex
        rw [dirGet, dirChildren, hdrec] at h2
        exact h2
      rw [addDir_new hdrec hlk] at heq
      dsimp only at heq
      generalize hgen : (s.alloc ⟨name, some dstP, VData.dir []⟩).1.setNode dstP
        ⟨dn, dp, VData.dir (setChild cs name s.size)⟩ = s1 at heq
      have hsz1 : s1.size = s.size + 1 := by
        rw [← hgen, VFS.size_setNode, VFS.size_allocFst]
      have hget_d1 : s1.get? dstP =
          some ⟨dn, dp, VData.dir (setChild cs name s.size)⟩ := by
        rw [← hgen]
        exact get?_after_update _ _ hdst
      have hget_f1 : s1.get? s.size = some ⟨name, some dstP, VData.dir []⟩ := by
        rw [← hgen]
        exact get?_fresh_after_update _ _ hdst
      have hget_o1 : ∀ j, j < s.size → j ≠ dstP → s1.get? j = s.get? j := by
        intro j hj hjd
        rw [← hgen]
        exact get?_old_after_update _ _ hj hjd
      have hW1 : WF s1 root :=
        update_wf h hdrec (fun l hl => by injection hl with h2; exact h2.symm)
          hsz1 hget_d1 hget_f1 hget_o1
      have hp1 : ∀ j, j < s.size → parentOf s1 j = parentOf s j := by
        intro j hj
        rw [← hgen]
        exact parentOf_update hdrec _ _ hj
      have hpf1 : parentOf s1 s.size = some dstP := by
        rw [parentOf, hget_f1]
      have hchain1 : ∀ f j, j < s.size → chainList s1 f j = chainList s f j :=
        fun f j hj => chainList_frame h hp1 f j hj
      have hdir1 : isDirAt s1 s.size := by
        rw [isDirAt, hget_f1]
        trivial
      have hsrc1 : s1.get? src = s.get? src := hget_o1 src hsrcex hsrcne
      have hdc1 : dirChildren s1 src = scs := by
        rw [dirChildren, hsrc1, hgs]
      have hchainNew : chainList s1 (s.size + 1) s.size =
          s.size :: chainList s1 s.size dstP := by
        rw [chainList_succ, hpf1]
      rw [hdc1] at heq
      have hitemsOK : ∀ e, e ∈ sortedChildren scs → e.2 < B ∧
          (∀ j, j < s1.size → e.2 ∈ chainList s1 (j + 1) j → j < B) ∧
          e.2 ∉ chainList s1 (s.size + 1) s.size ∧
          B ≤ e.2 + fuel ∧
          lookupChild (dirChildren s1 s.size) e.1 = none := by
        intro e he
        obtain ⟨hlt, hesz, cn, hgc, hpc, hnc⟩ :=
          h.entry_spec hgs (mem_sortedChildren.1 he)
        have hpe : parentOf s e.2 = some src := by
          rw [parentOf, hgc]
          exact hpc
        have hsrcch : src ∈ chainList s (e.2 + 1) e.2 := chain_parent_mem h hpe
        have heB : e.2 < B := hsub e.2 hesz hsrcch
        have hfs : B ≤ e.2 + fuel := by
          have h1 : @LT.lt Nat instLTNat src e.2 := hlt
          have h2 : @LE.le Nat instLENat B (src + (fuel + 1)) := hfuel
          show @LE.le Nat instLENat B (e.2 + fuel)
          omega
        refine ⟨heB, ?_, ?_, hfs, ?_⟩
        · intro j hj hchain
          by_cases hjlt : j < s.size
          · rw [hchain1 (j + 1) j hjlt] at hchain
            exact hsub j hjlt (chain_extend h j e.2 hchain src hsrcch)
          · have hjeq : j = s.size := by
              rw [hsz1] at hj
              omega
            subst hjeq
            rw [hchainNew] at hchain
            rcases List.mem_cons.1 hchain with he2 | hchain2
            · exact absurd he2 (Nat.ne_of_lt (Nat.lt_of_lt_of_le heB hB))
            · rw [hchain1 s.size dstP hdst] at hchain2
              exact absurd
                (chain_extend h dstP e.2 (chain_mem_full h dstP s.size e.2 hchain2)
                  src hsrcch) hout
        · intro hmem
          rw [hchainNew] at hmem
          rcases List.mem_cons.1 hmem with he2 | hmem2
          · exact absurd he2 (Nat.ne_of_lt (Nat.lt_of_lt_of_le heB hB))
          · rw [hchain1 s.size dstP hdst] at hmem2
            exact absurd
              (chain_extend h dstP e.2 (chain_mem_full h dstP s.size e.2 hmem2)
                src hsrcch) hout
        · rw [dirChildren, hget_f1]
          rfl
      have hCCout := hCC s1 s.size (sortedChildren scs) s' r hW1 hB
        (by rw [hsz1]; exact Nat.lt_succ_self _) hdir1 hitemsOK
        (sortedChildren_keys_nodup (h.keys_nodup hgs)) heq
      obtain ⟨hW2, hsz2, hf2, hp2, hr2, hB6, hB7⟩ := hCCout
      have hsle : s.size ≤ s1.size := by
        rw [hsz1]
        exact Nat.le_succ _
      refine ⟨hW2, Nat.le_trans hsle hsz2, ?_, ?_, ?_, fun _ => hr2, ?_, ?_⟩
      · intro j hj hjd
        rw [hf2 j (Nat.lt_of_lt_of_le hj hsle) (Nat.ne_of_lt hj),
          hget_o1 j hj hjd]
      · intro j hj
        rw [hp2 j (Nat.lt_of_lt_of_le hj hsle), hp1 j hj]
      · intro e he
        rw [hr2] at he
        exact absurd he (by simp)
      · intro _
        refine ⟨?_, ?_, ?_⟩
        · intro dn2 dp2 cs2 hrec2
          rw [hdrec] at hrec2
          injection hrec2 with hv
          injection hv with ha hb hc
          injection hc with hcs
          subst ha
          subst hb
          subst hcs
          rw [hf2 dstP (Nat.lt_of_lt_of_le hdst hsle) (Nat.ne_of_lt hdst)]
          exact hget_d1
        · rw [hp2 s.size (by rw [hsz1]; exact Nat.lt_succ_self _)]
          exact hpf1
        · intro F
          cases F with
          | zero => rfl
          | succ F =>
            obtain ⟨news, hrecE, hfa⟩ := hB6 name (some dstP) [] hget_f1
            rw [List.nil_append] at hrecE
            rw [extract_succ, extract_succ, hgs, hrecE]
            dsimp only
            have hfa2 : List.Forall₂
                (fun it en => en.1 = it.1 ∧
                  ∀ F2, extract s' F2 en.2 = extract s F2 it.2)
                (sortedChildren scs) news := by
              refine forall₂_imp_mem hfa ?_
              intro a b ha hab
              obtain ⟨hb1, hbe⟩ := hab
              refine ⟨hb1, ?_⟩
              intro F2
              rw [hbe F2]
              obtain ⟨hlt, hesz, cn, hgc, hpc, hnc⟩ :=
                h.entry_spec hgs (mem_sortedChildren.1 ha)
              have hpe : parentOf s a.2 = some src := by
                rw [parentOf, hgc]
                exact hpc
              have hsrcch : src ∈ chainList s (a.2 + 1) a.2 :=
                chain_parent_mem h hpe
              have hnot : a.2 ∉ chainList s (dstP + 1) dstP := fun hmem =>
                hout (chain_extend h dstP a.2 hmem src hsrcch)
              exact extract_frame h hget_o1 F2 a.2 hesz hnot
            have hkeysEq : news.map Prod.fst =
                (sortedChildren scs).map Prod.fst :=
              forall₂_keys hfa2 (fun a b hab => hab.1)
            have hsorted : List.Pairwise childLe news :=
              pairwise_childLe_of_keys hkeysEq (sortedChildren_sorted scs)
            have hptw : List.Forall₂
                (fun a b => (extract s' F b.2).map (fun t => (b.1, t)) =
                  (extract s F a.2).map (fun t => (a.1, t)))
                (sortedChildren scs) news :=
              hfa2.imp (fun a b hab => by rw [hab.2 F, hab.1])
            rw [sortedChildren_eq_self hsorted, mapM_eq_of_forall₂ hptw]
      · intro j hj1 hj2 f a hmem
        by_cases hjf : j = s.size
        · subst hjf
          cases f with
          | zero =>
            rw [chainList_zero] at hmem
            simp only [List.mem_singleton] at hmem
            exact Or.inl (Nat.le_of_eq hmem.symm)
          | succ f =>
            rw [chainList_succ] at hmem
            have hps2 : parentOf s' s.size = some dstP := by
              rw [hp2 s.size (by rw [hsz1]; exact Nat.lt_succ_self _)]
              exact hpf1
            rw [hps2] at hmem
            dsimp only at hmem
            rcases List.mem_cons.1 hmem with rfl | hmem2
            · exact Or.inl (Nat.le_refl _)
            · rw [chainList_frame hW1 hp2 f dstP
                (Nat.lt_of_lt_of_le hdst hsle), hchain1 f dstP hdst] at hmem2
              exact Or.inr (chain_mem_full h dstP f a hmem2)
        · have hj1b : s1.size ≤ j := by
            rw [hsz1]
            omega
          rcases hB7 j hj1b hj2 f a hmem with hge | hmem2
          · exact Or.inl (Nat.le_trans hsle hge)
          · rw [hchainNew] at hmem2
            rcases List.mem_cons.1 hmem2 with rfl | hmem3
            · exact Or.inl (Nat.le_refl _)
            · rw [hchain1 s.size dstP hdst] at hmem3
              exact Or.inr (chain_mem_full h dstP s.size a hmem3)
    · -- destination name taken: AlreadyExists, heap unchanged
      rw [hex, if_pos Option.isSome_some] at heq
      rw [Prod.mk.injEq] at heq
      obtain ⟨rfl, hr⟩ := heq
      refine ⟨h, Nat.le_refl _, fun j _ _ => rfl, fun j _ => rfl, ?_, ?_, ?_, ?_⟩
      · intro e he
        rw [← hr] at he
        injection he with he2
        exact ⟨rfl, Or.inr he2.symm⟩
      · intro hnone
        exact absurd hnone (by simp)
      · intro hok
        rw [← hr] at hok
        exact absurd hok (by simp)
      · intro j hj1 hj2 f a hmem
        exact absurd hj2 (by omega)
  · -- source is a file
    rw [hgs] at heq
    dsimp only at heq
    rcases hlk : lookupChild cs name with _ | c
    · -- fresh file
      rw [addFile_new hdrec hlk] at heq
      dsimp only at heq
      generalize hgen : (s.alloc ⟨name, some dstP, VData.file sc⟩).1.setNode dstP
        ⟨dn, dp, VData.dir (setChild cs name s.size)⟩ = s1 at heq
      rw [Prod.mk.injEq] at heq
      obtain ⟨rfl, hr⟩ := heq
      have hsz1 : s1.size = s.size + 1 := by
        rw [← hgen, VFS.size_setNode, VFS.size_allocFst]
      have hget_d1 : s1.get? dstP =
          some ⟨dn, dp, VData.dir (setChild cs name s.size)⟩ := by
        rw [← hgen]
        exact get?_after_update _ _ hdst
      have hget_f1 : s1.get? s.size = some ⟨name, some dstP, VData.file sc⟩ := by
        rw [← hgen]
        exact get?_fresh_after_update _ _ hdst
      have hget_o1 : ∀ j, j < s.size → j ≠ dstP → s1.get? j = s.get? j := by
        intro j hj hjd
        rw [← hgen]
        exact get?_old_after_update _ _ hj hjd
      have hW1 : WF s1 root :=
        update_wf h hdrec (fun l hl => by injection hl) hsz1 hget_d1 hget_f1
          hget_o1
      have hp1 : ∀ j, j < s.size → parentOf s1 j = parentOf s j := by
        intro j hj
        rw [← hgen]
        exact parentOf_update hdrec _ _ hj
      have hpf1 : parentOf s1 s.size = some dstP := by
        rw [parentOf, hget_f1]
      have hchain1 : ∀ f j, j < s.size → chainList s1 f j = chainList s f j :=
        fun f j hj => chainList_frame h hp1 f j hj
      refine ⟨hW1, by rw [hsz1]; exact Nat.le_succ _, hget_o1, hp1, ?_, ?_, ?_, ?_⟩
      · intro e he
        rw [← hr] at he
        exact absurd he (by simp)
      · intro _
        exact hr.symm
      · intro _
        refine ⟨?_, hpf1, ?_⟩
        · intro dn2 dp2 cs2 hrec2
          rw [hdrec] at hrec2
          injection hrec2 with hv
          injection hv with ha hb hc
          injection hc with hcs
          subst ha
          subst hb
          subst hcs
          exact hget_d1
        · intro F
          cases F with
          | zero => rfl
          | succ F => rw [extract_succ, extract_succ, hgs, hget_f1]
      · intro j hj1 hj2 f a hmem
        have hjeq : j = s.size := by
          rw [hsz1] at hj2
          omega
        subst hjeq
        cases f with
        | zero =>
          rw [chainList_zero] at hmem
          simp only [List.mem_singleton] at hmem
          exact Or.inl (Nat.le_of_eq hmem.symm)
        | succ f =>
          rw [chainList_succ, hpf1] at hmem
          dsimp only at hmem
          rcases List.mem_cons.1 hmem with rfl | hmem2
          · exact Or.inl (Nat.le_refl _)
          · rw [hchain1 f dstP hdst] at hmem2
            exact Or.inr (chain_mem_full h dstP f a hmem2)
    · -- name taken: overwrite a file, or TypeConflict on a directory
      have hmemc : (name, c) ∈ cs := lookupChild_mem cs name c hlk
      obtain ⟨hltc, hcsz, cn, hgc, hpc, hnc⟩ := h.entry_spec hdrec hmemc
      rcases cn with ⟨cnm, cpr, ccs | cc⟩
      · -- existing directory: TypeConflict, heap unchanged
        rw [addFile_existing_dir hdrec hlk hgc] at heq
        dsimp only at heq
        rw [Prod.mk.injEq] at heq
        obtain ⟨rfl, hr⟩ := heq
        refine ⟨h, Nat.le_refl _, fun j _ _ => rfl, fun j _ => rfl, ?_, ?_, ?_, ?_⟩
        · intro e he
          rw [← hr] at he
          injection he with he2
          exact ⟨rfl, Or.inl he2.symm⟩
        · intro hnone
          rw [dirGet, dirChildren, hdrec, hlk] at hnone
          exact absurd hnone (by simp)
        · intro hok
          rw [← hr] at hok
          exact absurd hok (by simp)
        · intro j hj1 hj2 f a hmem
          exact absurd hj2 (by omega)
      · -- existing file: overwrite with a fresh node
        rw [addFile_existing_file hdrec hlk hgc] at heq
        dsimp only at heq
        generalize hgen : (s.alloc ⟨name, some dstP, VData.file sc⟩).1.setNode dstP
          ⟨dn, dp, VData.dir (setChild cs name s.size)⟩ = s1 at heq
        rw [Prod.mk.injEq] at heq
        obtain ⟨rfl, hr⟩ := heq
        have hsz1 : s1.size = s.size + 1 := by
          rw [← hgen, VFS.size_setNode, VFS.size_allocFst]
        have hget_d1 : s1.get? dstP =
            some ⟨dn, dp, VData.dir (setChild cs name s.size)⟩ := by
          rw [← hgen]
          exact get?_after_update _ _ hdst
        have hget_f1 : s1.get? s.size = some ⟨name, some dstP, VData.file sc⟩ := by
          rw [← hgen]
          exact get?_fresh_after_update _ _ hdst
        have hget_o1 : ∀ j, j < s.size → j ≠ dstP → s1.get? j = s.get? j := by
          intro j hj hjd
          rw [← hgen]
          exact get?_old_after_update _ _ hj hjd
        have hW1 : WF s1 root :=
          update_wf h hdrec (fun l hl => by injection hl) hsz1 hget_d1 hget_f1
            hget_o1
        have hp1 : ∀ j, j < s.size → parentOf s1 j = parentOf s j := by
          intro j hj
          rw [← hgen]
          exact parentOf_update hdrec _ _ hj
        have hpf1 : parentOf s1 s.size = some dstP := by
          rw [parentOf, hget_f1]
        have hchain1 : ∀ f j, j < s.size → chainList s1 f j = chainList s f j :=
          fun f j hj => chainList_frame h hp1 f j hj
        refine ⟨hW1, by rw [hsz1]; exact Nat.le_succ _, hget_o1, hp1, ?_, ?_, ?_, ?_⟩
        · intro e he
          rw [← hr] at he
          exact absurd he (by simp)
        · intro _
          exact hr.symm
        · intro _
          refine ⟨?_, hpf1, ?_⟩
          · intro dn2 dp2 cs2 hrec2
            rw [hdrec] at hrec2
            injection hrec2 with hv
            injection hv with ha hb hc
            injection hc with hcs
            subst ha
            subst hb
            subst hcs
            exact hget_d1
          · intro F
            cases F with
            | zero => rfl
            | succ F => rw [extract_succ, extract_succ, hgs, hget_f1]
        · intro j hj1 hj2 f a hmem
          have hjeq : j = s.size := by
            rw [hsz1] at hj2
            omega
          subst hjeq
          cases f with
          | zero =>
            rw [chainList_zero] at hmem
            simp only [List.mem_singleton] at hmem
            exact Or.inl (Nat.le_of_eq hmem.symm)
          | succ f =>
            rw [chainList_succ, hpf1] at hmem
            dsimp only at hmem
            rcases List.mem_cons.1 hmem with rfl | hmem2
            · exact Or.inl (Nat.le_refl _)
            · rw [hchain1 f dstP hdst] at hmem2
              exact Or.inr (chain_mem_full h dstP f a hmem2)

/-- The copy contracts hold at every fuel, by the mutual fuel induction
mirroring the recursion of `_copy_recursive`. -/
theorem copy_master (root B : NodeId) :
    ∀ fuel, copyRecSpec root B fuel ∧ copyChildSpec root B fuel := by
  intro fuel
  induction fuel with
  | zero =>
    exact ⟨copyRecSpec_zero root B,
      copyChildren_spec_of root B 0 (copyRecSpec_zero root B)⟩
  | succ fuel ih =>
    have hCR : copyRecSpec root B (fuel + 1) :=
      copyRecursive_spec_of root B fuel (copyChildren_spec_of root B fuel ih.1)
    exact ⟨hCR, copyChildren_spec_of root B (fuel + 1) hCR⟩

/-! ### Copy at the top level, and well-formedness of the mutators -/

/-- `copy_master` instantiated with the trivial bound `B = s.size`: the
user-facing contract of `_copy_recursive` on a well-formed heap whose
destination parent lies outside the source subtree, with fuel at least
the heap size. -/
theorem copy_spec_top {s : VFS} {root src dstP : NodeId} {name : String}
    {s' : VFS} {r : Except Err Unit} {fuel : Nat}
    (h : WF s root) (hsrc : src < s.size) (hdst : dstP < s.size)
    (hdir : isDirAt s dstP) (hout : src ∉ chainList s (dstP + 1) dstP)
    (hfuel : s.size ≤ src + fuel)
    (heq : copyRecursive fuel s src dstP name = (s', r)) :
    WF s' root ∧
    s.size ≤ s'.size ∧
    (∀ j, j < s.size → j ≠ dstP → s'.get? j = s.get? j) ∧
    (∀ j, j < s.size → parentOf s' j = parentOf s j) ∧
    (∀ e, r = Except.error e →
      s' = s ∧ (e = Err.typeConflict ∨ e = Err.alreadyExists)) ∧
    (dirGet s dstP name = none → r = Except.ok ()) ∧
    (r = Except.ok () →
      (∀ dn dp cs, s.get? dstP = some ⟨dn, dp, VData.dir cs⟩ →
        s'.get? dstP = some ⟨dn, dp, VData.dir (setChild cs name s.size)⟩) ∧
      parentOf s' s.size = some dstP ∧
      (∀ F, extract s' F s.size = extract s F src)) := by
  have hm := (copy_master root s.size fuel).1 s src dstP name s' r h hsrc
    (Nat.le_refl _) (fun j hj _ => hj) hdst hdir hout hfuel heq
  exact ⟨hm.1, hm.2.1, hm.2.2.1, hm.2.2.2.1, hm.2.2.2.2.1, hm.2.2.2.2.2.1,
    hm.2.2.2.2.2.2.1⟩

/-- `add_dir` preserves well-formedness in every case. -/
theorem addDir_wf {s : VFS} {root : NodeId} (h : WF s root) {d : NodeId}
    {n : String} {s' : VFS} {r : Except Err NodeId}
    (heq : addDir s d n = (s', r)) : WF s' root := by
  rcases hgd : s.get? d with _ | ⟨dn, dp, cs | c⟩
  · simp only [addDir, hgd] at heq
    rw [Prod.mk.injEq] at heq
    rw [← heq.1]
    exact h
  · rcases hlk : lookupChild cs n with _ | c2
    · rw [addDir_new hgd hlk, Prod.mk.injEq] at heq
      rw [← heq.1]
      exact update_wf h hgd
        (fun l hl => by injection hl with h2; exact h2.symm)
        (by rw [VFS.size_setNode, VFS.size_allocFst])
        (get?_after_update _ _ (VFS.get?_lt_size hgd))
        (get?_fresh_after_update _ _ (VFS.get?_lt_size hgd))
        (fun j hj hjd => get?_old_after_update _ _ hj hjd)
    · rcases hgc : s.get? c2 with _ | ⟨cn2, cp2, ccs | cc⟩
      · simp only [addDir, hgd, hlk, hgc] at heq
        rw [Prod.mk.injEq] at heq
        rw [← heq.1]
        exact h
      · rw [addDir_existing_dir hgd hlk hgc, Prod.mk.injEq] at heq
        rw [← heq.1]
        exact h
      · rw [addDir_existing_file hgd hlk hgc, Prod.mk.injEq] at heq
        rw [← heq.1]
        exact h
  · simp only [addDir, hgd] at heq
    rw [Prod.mk.injEq] at heq
    rw [← heq.1]
    exact h

/-- `add_file` preserves well-formedness in every case. -/
theorem addFile_wf {s : VFS} {root : NodeId} (h : WF s root) {d : NodeId}
    {n : String} {c : List Nat} {s' : VFS} {r : Except Err NodeId}
    (heq : addFile s d n c = (s', r)) : WF s' root := by
  rcases hgd : s.get? d with _ | ⟨dn, dp, cs | cf⟩
  · simp only [addFile, hgd] at heq
    rw [Prod.mk.injEq] at heq
    rw [← heq.1]
    exact h
  · rcases hlk : lookupChild cs n with _ | c2
    · rw [addFile_new hgd hlk, Prod.mk.injEq] at heq
      rw [← heq.1]
      exact update_wf h hgd (fun l hl => by injection hl)
        (by rw [VFS.size_setNode, VFS.size_allocFst])
        (get?_after_update _ _ (VFS.get?_lt_size hgd))
        (get?_fresh_after_update _ _ (VFS.get?_lt_size hgd))
        (fun j hj hjd => get?_old_after_update _ _ hj hjd)
    · rcases hgc : s.get? c2 with _ | ⟨cn2, cp2, ccs | cc⟩
      · simp only [addFile, hgd, hlk, hgc] at heq
        rw [Prod.mk.injEq] at heq
        rw [← heq.1]
        exact h
      · rw [addFile_existing_dir hgd hlk hgc, Prod.mk.injEq] at heq
        rw [← heq.1]
        exact h
      · rw [addFile_existing_file hgd hlk hgc, Prod.mk.injEq] at heq
        rw [← heq.1]
        exact update_wf h hgd (fun l hl => by injection hl)
          (by rw [VFS.size_setNode, VFS.size_allocFst])
          (get?_after_update _ _ (VFS.get?_lt_size hgd))
          (get?_fresh_after_update _ _ (VFS.get?_lt_size hgd))
          (fun j hj hjd => get?_old_after_update _ _ hj hjd)
  · simp only [addFile, hgd] at heq
    rw [Prod.mk.injEq] at heq
    rw [← heq.1]
    exact h

/-- `add_dir` never mutates the heap when it raises. -/
theorem addDir_error_frame {s : VFS} {d : NodeId} {n : String} {s' : VFS}
    {e : Err} (heq : addDir s d n = (s', Except.error e)) : s' = s := by
  rcases hgd : s.get? d with _ | ⟨dn, dp, cs | c⟩
  · simp only [addDir, hgd] at heq
    rw [Prod.mk.injEq] at heq
    exact heq.1.symm
  · rcases hlk : lookupChild cs n with _ | c2
    · rw [addDir_new hgd hlk, Prod.mk.injEq] at heq
      exact absurd heq.2 (by simp)
    · rcases hgc : s.get? c2 with _ | ⟨cn2, cp2, ccs | cc⟩
      · simp only [addDir, hgd, hlk, hgc] at heq
        rw [Prod.mk.injEq] at heq
        exact heq.1.symm
      · rw [addDir_existing_dir hgd hlk hgc, Prod.mk.injEq] at heq
        exact absurd heq.2 (by simp)
      · rw [addDir_existing_file hgd hlk hgc, Prod.mk.injEq] at heq
        exact heq.1.symm
  · simp only [addDir, hgd] at heq
    rw [Prod.mk.injEq] at heq
    exact heq.1.symm

/-- `add_file` never mutates the heap when it raises. -/
theorem addFile_error_frame {s : VFS} {d : NodeId} {n : String}
    {c : List Nat} {s' : VFS} {e : Err}
    (heq : addFile s d n c = (s', Except.error e)) : s' = s := by
  rcases hgd : s.get? d with _ | ⟨dn, dp, cs | cf⟩
  · simp only [addFile, hgd] at heq
    rw [Prod.mk.injEq] at heq
    exact heq.1.symm
  · rcases hlk : lookupChild cs n with _ | c2
    · rw [addFile_new hgd hlk, Prod.mk.injEq] at heq
      exact absurd heq.2 (by simp)
    · rcases hgc : s.get? c2 with _ | ⟨cn2, cp2, ccs | cc⟩
      · simp only [addFile, hgd, hlk, hgc] at heq
        rw [Prod.mk.injEq] at heq
        exact heq.1.symm
      · rw [addFile_existing_dir hgd hlk hgc, Prod.mk.injEq] at heq
        exact heq.1.symm
      · rw [addFile_existing_file hgd hlk hgc, Prod.mk.injEq] at heq
        exact absurd heq.2 (by simp)
  · simp only [addFile, hgd] at heq
    rw [Prod.mk.injEq] at heq
    exact heq.1.symm

/-- On a well-formed heap, every node reachable downward from the root
other than the root itself is registered in its parent's dictionary
under its own name. -/
theorem wf_backrefs {s : VFS} {root : NodeId} (h : WF s root) :
    ∀ j, ReachDown s root j → j ≠ root →
      ∃ p cn, parentOf s j = some p ∧ s.get? j = some cn ∧
        dirGet s p cn.name = some j := by
  intro j hreach
  induction hreach with
  | refl =>
    intro hne
    exact absurd rfl hne
  | @child d e hd he ih =>
    intro _
    rcases hgd : s.get? d with _ | ⟨dn, dp, cs | c⟩
    · rw [dirChildren, hgd] at he
      exact absurd he (by simp)
    · rw [dirChildren, hgd] at he
      dsimp only at he
      obtain ⟨h1, h2, cn, hgc, hpc, hnc⟩ := h.entry_spec hgd he
      refine ⟨d, cn, ?_, hgc, ?_⟩
      · rw [parentOf, hgc]
        exact hpc
      · rw [dirGet, dirChildren, hgd, hnc]
        exact mem_lookupChild cs e.1 e.2 (h.keys_nodup hgd) he
    · rw [dirChildren, hgd] at he
      exact absurd he (by simp)

/-! ### Totality and error kinds of the resolvers, adders and walk -/

/-- On a well-formed heap, the resolve loop started at an existing node
fails only with the specified kinds `NotFound` and `NotADirectory`
(never the dangling-reference `badState`, which Python cannot reach). -/
theorem resolveLoop_sound {s : VFS} {root : NodeId} (h : WF s root) :
    ∀ parts cur, cur < s.size → ∀ s1 e,
      resolveLoop s root cur parts = (s1, Except.error e) →
      e = Err.notFound ∨ e = Err.notADirectory := by
  intro parts
  induction parts with
  | nil =>
    intro cur hcur s1 e heq
    have heq2 : (s, Except.ok cur) = (s1, Except.error e) := heq
    rw [Prod.mk.injEq] at heq2
    exact absurd heq2.2 (by simp)
  | cons part rest ih =>
    intro cur hcur s1 e heq
    by_cases h1 : part = "."
    · subst h1
      rw [resolveLoop_dot] at heq
      exact ih cur hcur s1 e heq
    · by_cases h2 : part = ".."
      · subst h2
        obtain ⟨n, hn⟩ := VFS.get?_of_lt hcur
        rw [resolveLoop_dotdot root rest hn] at heq
        rcases hp : n.parent with _ | p <;> rw [hp] at heq <;> dsimp only at heq
        · exact ih root h.size_pos s1 e heq
        · exact ih p (Nat.lt_trans (h.parent_lt hn hp) hcur) s1 e heq
      · obtain ⟨n, hn⟩ := VFS.get?_of_lt hcur
        rcases n with ⟨nm, pr, cs | cc⟩
        · rw [resolveLoop_named root rest h1 h2 hn] at heq
          rcases hlk : lookupChild cs part with _ | nxt <;> rw [hlk] at heq <;>
            dsimp only at heq
          · rw [Prod.mk.injEq] at heq
            obtain rfl : Err.notFound = e := by injection heq.2
            exact Or.inl rfl
          · obtain ⟨hlt, hsz, cn, hgc, hpc, hnc⟩ :=
              h.entry_spec hn (lookupChild_mem cs part nxt hlk)
            exact ih nxt hsz s1 e heq
        · rw [resolveLoop_named_file root rest h1 h2 hn] at heq
          rw [Prod.mk.injEq] at heq
          obtain rfl : Err.notADirectory = e := by injection heq.2
          exact Or.inr rfl

/-- On a well-formed heap, the creation-path loop started at an existing
node fails only with `NotFound` or `NotADirectory`, and on success
returns an existing node. -/
theorem rpfcLoop_sound {s : VFS} {root : NodeId} (h : WF s root) :
    ∀ parts cur, cur < s.size →
      (∀ s1 e, rpfcLoop s root cur parts = (s1, Except.error e) →
        e = Err.notFound ∨ e = Err.notADirectory) ∧
      (∀ s1 c, rpfcLoop s root cur parts = (s1, Except.ok c) → c < s.size) := by
  intro parts
  induction parts with
  | nil =>
    intro cur hcur
    constructor
    · intro s1 e heq
      have heq2 : (s, Except.ok cur) = (s1, Except.error e) := heq
      rw [Prod.mk.injEq] at heq2
      exact absurd heq2.2 (by simp)
    · intro s1 c heq
      have heq2 : (s, Except.ok cur) = (s1, Except.ok c) := heq
      rw [Prod.mk.injEq] at heq2
      obtain rfl : cur = c := by injection heq2.2
      exact hcur
  | cons part rest ih =>
    intro cur hcur
    by_cases h1 : part = "."
    · subst h1
      exact ⟨fun s1 e heq => (ih cur hcur).1 s1 e (by rw [rpfcLoop_dot] at heq; exact heq),
        fun s1 c heq => (ih cur hcur).2 s1 c (by rw [rpfcLoop_dot] at heq; exact heq)⟩
    · by_cases h2 : part = ".."
      · subst h2
        obtain ⟨n, hn⟩ := VFS.get?_of_lt hcur
        constructor
        · intro s1 e heq
          rw [rpfcLoop_dotdot root rest hn] at heq
          rcases hp : n.parent with _ | p <;> rw [hp] at heq <;> dsimp only at heq
          · exact (ih root h.size_pos).1 s1 e heq
          · exact (ih p (Nat.lt_trans (h.parent_lt hn hp) hcur)).1 s1 e heq
        · intro s1 c heq
          rw [rpfcLoop_dotdot root rest hn] at heq
          rcases hp : n.parent with _ | p <;> rw [hp] at heq <;> dsimp only at heq
          · exact (ih root h.size_pos).2 s1 c heq
          · exact (ih p (Nat.lt_trans (h.parent_lt hn hp) hcur)).2 s1 c heq
      · obtain ⟨n, hn⟩ := VFS.get?_of_lt hcur
        rcases n with ⟨nm, pr, cs | cc⟩
        · constructor
          · intro s1 e heq
            rw [rpfcLoop_named root rest h1 h2 hn] at heq
            rcases hlk : lookupChild cs part with _ | nxt <;> rw [hlk] at heq <;>
              dsimp only at heq
            · rw [Prod.mk.injEq] at heq
              obtain rfl : Err.notFound = e := by injection heq.2
              exact Or.inl rfl
            · obtain ⟨hlt, hsz, cn, hgc, hpc, hnc⟩ :=
                h.entry_spec hn (lookupChild_mem cs part nxt hlk)
              rcases cn with ⟨cnm, cpr, ccs | ccc⟩
              · rw [hgc] at heq
                dsimp only at heq
                exact (ih nxt hsz).1 s1 e heq
              · rw [hgc] at heq
                dsimp only at heq
                rw [Prod.mk.injEq] at heq
                obtain rfl : Err.notADirectory = e := by injection heq.2
                exact Or.inr rfl
          · intro s1 c heq
            rw [rpfcLoop_named root rest h1 h2 hn] at heq
            rcases hlk : lookupChild cs part with _ | nxt <;> rw [hlk] at heq <;>
              dsimp only at heq
            · rw [Prod.mk.injEq] at heq
              exact absurd heq.2 (by simp)
            · obtain ⟨hlt, hsz, cn, hgc, hpc, hnc⟩ :=
                h.entry_spec hn (lookupChild_mem cs part nxt hlk)
              rcases cn with ⟨cnm, cpr, ccs | ccc⟩
              · rw [hgc] at heq
                dsimp only at heq
                exact (ih nxt hsz).2 s1 c heq
              · rw [hgc] at heq
                dsimp only at heq
                rw [Prod.mk.injEq] at heq
                exact absurd heq.2 (by simp)
        · constructor
          · intro s1 e heq
            rw [rpfcLoop_named_file root rest h1 h2 hn] at heq
            rw [Prod.mk.injEq] at heq
            obtain rfl : Err.notADirectory = e := by injection heq.2
            exact Or.inr rfl
          · intro s1 c heq
            rw [rpfcLoop_named_file root rest h1 h2 hn] at heq
            rw [Prod.mk.injEq] at heq
            exact absurd heq.2 (by simp)

/-- `add_dir` on a directory of a well-formed heap is total with the
specified kind: it returns an id (unchanged heap, or one fresh
allocation plus one mapping update) or raises `TypeConflict` with the
heap unchanged. -/
theorem addDir_total {s : VFS} {root : NodeId} (h : WF s root) {d : NodeId}
    {n : String} {s' : VFS} {r : Except Err NodeId}
    (hdir : isDirAt s d) (heq : addDir s d n = (s', r)) :
    (s' = s ∧ r = Except.error Err.typeConflict) ∨
    (∃ c, r = Except.ok c ∧
      (s' = s ∨ (c = s.size ∧ ∃ dn dp cs,
        s.get? d = some ⟨dn, dp, VData.dir cs⟩ ∧
        s' = (s.alloc ⟨n, some d, VData.dir []⟩).1.setNode d
          ⟨dn, dp, VData.dir (setChild cs n s.size)⟩))) := by
  obtain ⟨dn, dp, cs, hrec⟩ := isDirAt_record hdir
  rcases hlk : lookupChild cs n with _ | c2
  · rw [addDir_new hrec hlk, Prod.mk.injEq] at heq
    exact Or.inr ⟨s.size, heq.2.symm, Or.inr ⟨rfl, dn, dp, cs, hrec, heq.1.symm⟩⟩
  · obtain ⟨hlt, hsz, cn, hgc, hpc, hnc⟩ :=
      h.entry_spec hrec (lookupChild_mem cs n c2 hlk)
    rcases cn with ⟨cnm, cpr, ccs | ccc⟩
    · rw [addDir_existing_dir hrec hlk hgc, Prod.mk.injEq] at heq
      exact Or.inr ⟨c2, heq.2.symm, Or.inl heq.1.symm⟩
    · rw [addDir_existing_file hrec hlk hgc, Prod.mk.injEq] at heq
      exact Or.inl ⟨heq.1.symm, heq.2.symm⟩

/-- `add_file` on a directory of a well-formed heap is total with the
specified kind: it succeeds with one fresh allocation plus one mapping
update, or raises `TypeConflict` with the heap unchanged. -/
theorem addFile_total {s : VFS} {root : NodeId} (h : WF s root) {d : NodeId}
    {n : String} {content : List Nat} {s' : VFS} {r : Except Err NodeId}
    (hdir : isDirAt s d) (heq : addFile s d n content = (s', r)) :
    (s' = s ∧ r = Except.error Err.typeConflict) ∨
    (r = Except.ok s.size ∧ ∃ dn dp cs,
      s.get? d = some ⟨dn, dp, VData.dir cs⟩ ∧
      s' = (s.alloc ⟨n, some d, VData.file content⟩).1.setNode d
        ⟨dn, dp, VData.dir (setChild cs n s.size)⟩) := by
  obtain ⟨dn, dp, cs, hrec⟩ := isDirAt_record hdir
  rcases hlk : lookupChild cs n with _ | c2
  · rw [addFile_new hrec hlk, Prod.mk.injEq] at heq
    exact Or.inr ⟨heq.2.symm, dn, dp, cs, hrec, heq.1.symm⟩
  · obtain ⟨hlt, hsz, cn, hgc, hpc, hnc⟩ :=
      h.entry_spec hrec (lookupChild_mem cs n c2 hlk)
    rcases cn with ⟨cnm, cpr, ccs | ccc⟩
    · rw [addFile_existing_dir hrec hlk hgc, Prod.mk.injEq] at heq
      exact Or.inl ⟨heq.1.symm, heq.2.symm⟩
    · rw [addFile_existing_file hrec hlk hgc, Prod.mk.injEq] at heq
      exact Or.inr ⟨heq.2.symm, dn, dp, cs, hrec, heq.1.symm⟩

/-- The stack walk terminates with a well-defined finite sequence: once
the fuel covers the pre-order size, the result no longer depends on it
(the Python `while stack` loop runs exactly that long). -/
theorem walkVfs_fuel_stable {s : VFS} {root : NodeId} (h : WF s root)
    {start : NodeId} (hs : start < s.size) (maxdepth : Option Nat)
    {fuel : Nat} (hf : (preOne s maxdepth (start, 0)).length ≤ fuel) :
    walkVfs s start maxdepth fuel = preOne s maxdepth (start, 0) := by
  rw [walkVfs, walkLoop_flatten h fuel [(start, 0)] ?_ ?_]
  · rw [List.flatMap_cons]
    simp only [List.flatMap_nil, List.append_nil]
  · intro e he
    simp only [List.mem_singleton] at he
    subst he
    exact hs
  · simpa using hf

/-- Any run of the child loop preserves well-formedness as soon as the
abstracted nested call does. -/
theorem copyChildrenF_wf {root : NodeId}
    (cr : VFS → NodeId → NodeId → String → VFS × Except Err Unit)
    (hcr : ∀ s c nd nm s' r, WF s root → cr s c nd nm = (s', r) → WF s' root) :
    ∀ items s1 newDir s2 r, WF s1 root →
      copyChildrenF cr s1 newDir items = (s2, r) → WF s2 root := by
  intro items
  induction items with
  | nil =>
    intro s1 newDir s2 r h heq
    have heq2 : (s1, Except.ok ()) = (s2, r) := heq
    rw [Prod.mk.injEq] at heq2
    rw [← heq2.1]
    exact h
  | cons it rest ih =>
    intro s1 newDir s2 r h heq
    obtain ⟨childName, child⟩ := it
    have heq2 : (match cr s1 child newDir childName with
      | (s3, .ok _) => copyChildrenF cr s3 newDir rest
      | (s3, .error e) => (s3, .error e)) = (s2, r) := heq
    rcases hcall : cr s1 child newDir childName with ⟨sm, rh⟩
    rw [hcall] at heq2
    have hWm := hcr s1 child newDir childName sm rh h hcall
    rcases rh with e | u
    · dsimp only at heq2
      rw [Prod.mk.injEq] at heq2
      rw [← heq2.1]
      exact hWm
    · dsimp only at heq2
      exact ih sm newDir s2 r hWm heq2

/-- `_copy_recursive` preserves well-formedness *unconditionally*: every
heap mutation it ever performs is an `add_dir`/`add_file` step on an
existing directory, each of which is itself well-formedness preserving —
including runs that die with `RecursionError` midway and self-copies
into the source's own subtree. -/
theorem copyRecursive_wf {root : NodeId} :
    ∀ fuel s src dstP name s' r, WF s root →
      copyRecursive fuel s src dstP name = (s', r) → WF s' root := by
  intro fuel
  induction fuel with
  | zero =>
    intro s src dstP name s' r h heq
    rw [copyRecursive_zero, Prod.mk.injEq] at heq
    rw [← heq.1]
    exact h
  | succ fuel ih =>
    intro s src dstP name s' r h heq
    rw [copyRecursive_succ] at heq
    rcases hgs : s.get? src with _ | ⟨sn, sp, scs | sc⟩ <;> rw [hgs] at heq <;>
      dsimp only at heq
    · rw [Prod.mk.injEq] at heq
      rw [← heq.1]
      exact h
    · by_cases hex : (dirGet s dstP name).isSome
      · rw [if_pos hex, Prod.mk.injEq] at heq
        rw [← heq.1]
        exact h
      · rw [if_neg hex] at heq
        rcases hadd : addDir s dstP name with ⟨s1, ra⟩
        rw [hadd] at heq
        have hW1 := addDir_wf h hadd
        rcases ra with e | nd
        · dsimp only at heq
          rw [Prod.mk.injEq] at heq
          rw [← heq.1]
          exact hW1
        · dsimp only at heq
          exact copyChildrenF_wf (copyRecursive fuel)
            (fun s2 c nd2 nm2 s3 r3 hw he => ih s2 c nd2 nm2 s3 r3 hw he)
            (sortedChildren (dirChildren s1 src)) s1 nd s' r hW1 heq
    · rcases hadd : addFile s dstP name sc with ⟨s1, ra⟩
      rw [hadd] at heq
      have hW1 := addFile_wf h hadd
      rcases ra with e | c2 <;> dsimp only at heq <;> rw [Prod.mk.injEq] at heq <;>
        rw [← heq.1] <;> exact hW1

/-! ### C1 -/

/-- C1 counterexample: copying a directory into itself under a fresh
name exhausts the recursion budget (Python's `RecursionError`) *after*
allocating destination nodes: the failed copy leaves the tree partially
mutated, refuting "no operation partially mutates the tree and then
fails" and "copy either creates the whole destination subtree or creates
none of it". -/
theorem copy_partial_mutation_cex :
    WF vfsA 0 ∧ isDirAt vfsA 1 ∧ vfsA.size = 2 ∧
    (copyRecursive 3 vfsA 1 1 "b").2 = Except.error Err.recursionError ∧
    (copyRecursive 3 vfsA 1 1 "b").1 ≠ vfsA ∧
    (copyRecursive 3 vfsA 1 1 "b").1.size = 5 := by
  decide

/-- C1 (amended): every core operation is total, failing only with the
specified error kinds, and all are atomic except the copy clause.  On a
well-formed heap: `_resolve_in_vfs` and `_resolve_parent_for_creation`
never mutate the heap, and from an existing start node fail only
`NotFound`/`NotADirectory` (plus `InvalidPath` for the creation
resolver); `add_dir` and `add_file` on a directory either succeed as one
fresh allocation plus one mapping update, or raise `TypeConflict` with
the heap unchanged; `_walk_vfs` terminates with a fuel-independent
finite sequence; and a copy whose destination parent is a directory
outside the source subtree with recursion budget covering the heap size
leaves the heap unchanged whenever it raises, the error then being
`TypeConflict` or `AlreadyExists`.  Only copy's all-or-nothing clause
fails, and only without that side condition: see the counterexample,
where a self-copy dies with `RecursionError` (not a specified kind)
after partially mutating the tree. -/
theorem operations_atomicity (s : VFS) (root : NodeId) (h : WF s root) :
    (∀ start p, (resolveInVfs s start root p).1 = s) ∧
    (∀ start p e, start < s.size →
      (resolveInVfs s start root p).2 = Except.error e →
      e = Err.notFound ∨ e = Err.notADirectory) ∧
    (∀ start p, (resolveParentForCreation s start root p).1 = s) ∧
    (∀ start p e, start < s.size →
      (resolveParentForCreation s start root p).2 = Except.error e →
      e = Err.invalidPath ∨ e = Err.notFound ∨ e = Err.notADirectory) ∧
    (∀ d n s' r, isDirAt s d → addDir s d n = (s', r) →
      (s' = s ∧ r = Except.error Err.typeConflict) ∨
      (∃ c, r = Except.ok c ∧
        (s' = s ∨ (c = s.size ∧ ∃ dn dp cs,
          s.get? d = some ⟨dn, dp, VData.dir cs⟩ ∧
          s' = (s.alloc ⟨n, some d, VData.dir []⟩).1.setNode d
            ⟨dn, dp, VData.dir (setChild cs n s.size)⟩)))) ∧
    (∀ d n content s' r, isDirAt s d → addFile s d n content = (s', r) →
      (s' = s ∧ r = Except.error Err.typeConflict) ∨
      (r = Except.ok s.size ∧ ∃ dn dp cs,
        s.get? d = some ⟨dn, dp, VData.dir cs⟩ ∧
        s' = (s.alloc ⟨n, some d, VData.file content⟩).1.setNode d
          ⟨dn, dp, VData.dir (setChild cs n s.size)⟩)) ∧
    (∀ start maxdepth fuel1 fuel2, start < s.size →
      (preOne s maxdepth (start, 0)).length ≤ fuel1 →
      (preOne s maxdepth (start, 0)).length ≤ fuel2 →
      walkVfs s start maxdepth fuel1 = walkVfs s start maxdepth fuel2) ∧
    (∀ src dstP name fuel s' e, src < s.size → dstP < s.size →
      isDirAt s dstP → src ∉ chainList s (dstP + 1) dstP →
      s.size ≤ src + fuel →
      copyRecursive fuel s src dstP name = (s', Except.error e) →
      s' = s ∧ (e = Err.typeConflict ∨ e = Err.alreadyExists)) := by
  refine ⟨fun start p => resolveInVfs_fst s start root p, ?_,
    fun start p => resolveParentForCreation_fst s start root p, ?_,
    fun d n s' r hdir heq => addDir_total h hdir heq,
    fun d n content s' r hdir heq => addFile_total h hdir heq, ?_, ?_⟩
  · intro start p e hstart herr
    rcases p with _ | str
    · exact absurd (show Except.ok start = Except.error e from herr) (by simp)
    · have herr2 : (if str = "." then (s, Except.ok start)
        else resolveLoop s root (if startsWithSlash str then root else start)
          (splitSlash str)).2 = Except.error e := herr
      by_cases hdot : str = "."
      · rw [if_pos hdot] at herr2
        exact absurd herr2 (by simp)
      · rw [if_neg hdot] at herr2
        have hcur : (if startsWithSlash str then root else start) < s.size := by
          by_cases hsl : startsWithSlash str
          · rw [if_pos hsl]
            exact h.size_pos
          · rw [if_neg hsl]
            exact hstart
        rcases hres : resolveLoop s root
            (if startsWithSlash str then root else start) (splitSlash str)
          with ⟨s1, rr⟩
        rw [hres] at herr2
        dsimp only at herr2
        rw [herr2] at hres
        exact resolveLoop_sound h (splitSlash str) _ hcur s1 e hres
  · intro start p e hstart herr
    rw [resolveParentForCreation] at herr
    by_cases hc1 : p = ""
    · rw [if_pos hc1] at herr
      dsimp only at herr
      exact Or.inl (Except.error.inj herr).symm
    · rw [if_neg hc1] at herr
      by_cases hc2 : rpfcStripped p = "" ∨ rpfcStripped p = "/"
      · rw [if_pos hc2] at herr
        dsimp only at herr
        exact Or.inl (Except.error.inj herr).symm
      · rw [if_neg hc2] at herr
        by_cases hc3 : splitSlash (rpfcStripped p) = []
        · rw [if_pos hc3] at herr
          dsimp only at herr
          exact Or.inl (Except.error.inj herr).symm
        · rw [if_neg hc3] at herr
          by_cases hc4 : (splitSlash (rpfcStripped p)).getLast! = "." ∨
              (splitSlash (rpfcStripped p)).getLast! = ".."
          · rw [if_pos hc4] at herr
            dsimp only at herr
            exact Or.inl (Except.error.inj herr).symm
          · rw [if_neg hc4] at herr
            have hcur : (if startsWithSlash (rpfcStripped p) then root
                else start) < s.size := by
              by_cases hsl : startsWithSlash (rpfcStripped p)
              · rw [if_pos hsl]
                exact h.size_pos
              · rw [if_neg hsl]
                exact hstart
            rcases hres : rpfcLoop s root
                (if startsWithSlash (rpfcStripped p) then root else start)
                (splitSlash (rpfcStripped p)).dropLast with ⟨s1, rr⟩
            rw [hres] at herr
            rcases rr with e2 | cur2
            · dsimp only at herr
              obtain rfl : e = e2 := (Except.error.inj herr).symm
              rcases (rpfcLoop_sound h _ _ hcur).1 s1 e hres with h5 | h5
              · exact Or.inr (Or.inl h5)
              · exact Or.inr (Or.inr h5)
            · dsimp only at herr
              have hc2s : cur2 < s.size := (rpfcLoop_sound h _ _ hcur).2 s1 cur2 hres
              obtain ⟨cn, hcn⟩ := VFS.get?_of_lt hc2s
              rcases cn with ⟨cnm, cpr, ccs | ccc⟩
              · rw [hcn] at herr
                dsimp only at herr
                exact absurd herr (by simp)
              · rw [hcn] at herr
                dsimp only at herr
                exact Or.inr (Or.inr (Except.error.inj herr).symm)
  · intro start maxdepth fuel1 fuel2 hstart hf1 hf2
    rw [walkVfs_fuel_stable h hstart maxdepth hf1,
      walkVfs_fuel_stable h hstart maxdepth hf2]
  · intro src dstP name fuel s' e hsrc hdst hdir hout hfuel heq
    exact (copy_spec_top h hsrc hdst hdir hout hfuel heq).2.2.2.2.1 e rfl

/-- C1 witness: on a concrete well-formed heap, copying the file `f` of
`vfsAF` onto the occupied directory name `a` raises `TypeConflict` and
leaves the heap unchanged. -/
theorem operations_atomicity_witness :
    vfsAF = vfsAF ∧
    (Err.typeConflict = Err.typeConflict ∨
      Err.typeConflict = Err.alreadyExists) :=
  (operations_atomicity vfsAF 0 (by decide)).2.2.2.2.2.2.2 2 0 "a" 2 vfsAF
    Err.typeConflict (by decide) (by decide) (by decide) (by decide)
    (by decide) (by decide)

/-! ### C2 -/

/-- C2 counterexample: copying the directory `a` of `vfsNest` into its
own subdirectory `c` under the free name `d` does not "create a fresh
directory and recursively copy every child into it" — it dies with
`RecursionError` (and leaves a partial copy), so the directory-source
success clause of the collision policy needs the destination to lie
outside the source subtree. -/
theorem copy_dir_into_subtree_cex :
    WF vfsNest 0 ∧ isDirAt vfsNest 1 ∧ isDirAt vfsNest 2 ∧
    dirGet vfsNest 2 "d" = none ∧
    (copyRecursive 4 vfsNest 1 2 "d").2 = Except.error Err.recursionError ∧
    (copyRecursive 4 vfsNest 1 2 "d").1 ≠ vfsNest := by
  decide

/-- C2 (amended): the collision policy of `_copy_recursive` on a
well-formed heap with a directory destination parent.  A file source
always succeeds when the destination name is free or held by a file (a
fresh node carrying the source content replaces the mapping entry) and
raises `TypeConflict` when the name is held by a directory, leaving the
heap unchanged.  A directory source raises `AlreadyExists` whenever the
name is present at all, leaving the heap unchanged; when the name is
free *and* the destination parent lies outside the source subtree *and*
the recursion budget covers the heap size, it creates a fresh directory
registered under the name whose extracted subtree equals the source's. -/
theorem copy_collision_policy (s : VFS) (root src dstP : NodeId)
    (name : String) (fuel : Nat) (h : WF s root) (hdst : dstP < s.size)
    (hdir : isDirAt s dstP) :
    (∀ sn sp c, s.get? src = some ⟨sn, sp, VData.file c⟩ →
      ((∀ t, dirGet s dstP name = some t → isFileAt s t) →
        ∃ s', copyRecursive (fuel + 1) s src dstP name = (s', Except.ok ()) ∧
          dirGet s' dstP name = some s.size ∧
          parentOf s' s.size = some dstP ∧
          contentAt s' s.size = some c) ∧
      (∀ t, dirGet s dstP name = some t → isDirAt s t →
        copyRecursive (fuel + 1) s src dstP name =
          (s, Except.error Err.typeConflict))) ∧
    (∀ sn sp cs, s.get? src = some ⟨sn, sp, VData.dir cs⟩ →
      ((dirGet s dstP name).isSome →
        copyRecursive (fuel + 1) s src dstP name =
          (s, Except.error Err.alreadyExists)) ∧
      (dirGet s dstP name = none → src ∉ chainList s (dstP + 1) dstP →
        s.size ≤ src + (fuel + 1) →
        ∃ s', copyRecursive (fuel + 1) s src dstP name = (s', Except.ok ()) ∧
          dirGet s' dstP name = some s.size ∧
          parentOf s' s.size = some dstP ∧
          (∀ F, extract s' F s.size = extract s F src))) := by
  obtain ⟨dn, dp, dcs, hdrec⟩ := isDirAt_record hdir
  constructor
  · intro sn sp c hgs
    constructor
    · intro hfile
      rcases hlk : lookupChild dcs name with _ | t
      · refine ⟨(s.alloc ⟨name, some dstP, VData.file c⟩).1.setNode dstP
          ⟨dn, dp, VData.dir (setChild dcs name s.size)⟩, ?_, ?_, ?_, ?_⟩
        · rw [copyRecursive_succ, hgs]
          dsimp only
          rw [addFile_new hdrec hlk]
        · rw [dirGet, dirChildren, get?_after_update _ _ hdst]
          exact lookupChild_setChild_self dcs name s.size
        · rw [parentOf, get?_fresh_after_update _ _ hdst]
        · rw [contentAt, get?_fresh_after_update _ _ hdst]
      · have hdg : dirGet s dstP name = some t := by
          rw [dirGet, dirChildren, hdrec]
          exact hlk
        have hft := hfile t hdg
        rw [isFileAt] at hft
        rcases hgt : s.get? t with _ | ⟨tn, tp, tcs | tc⟩ <;>
          simp only [hgt] at hft
        refine ⟨(s.alloc ⟨name, some dstP, VData.file c⟩).1.setNode dstP
          ⟨dn, dp, VData.dir (setChild dcs name s.size)⟩, ?_, ?_, ?_, ?_⟩
        · rw [copyRecursive_succ, hgs]
          dsimp only
          rw [addFile_existing_file hdrec hlk hgt]
        · rw [dirGet, dirChildren, get?_after_update _ _ hdst]
          exact lookupChild_setChild_self dcs name s.size
        · rw [parentOf, get?_fresh_after_update _ _ hdst]
        · rw [contentAt, get?_fresh_after_update _ _ hdst]
    · intro t hdg hdirt
      have hlk : lookupChild dcs name = some t := by
        rw [dirGet, dirChildren, hdrec] at hdg
        exact hdg
      obtain ⟨tn, tp, tcs, hgt⟩ := isDirAt_record hdirt
      rw [copyRecursive_succ, hgs]
      dsimp only
      rw [addFile_existing_dir hdrec hlk hgt]
  · intro sn sp cs hgs
    constructor
    · intro hsome
      rw [copyRecursive_succ, hgs]
      dsimp only
      rw [if_pos hsome]
    · intro hnone hout hfuel
      have hsrc : src < s.size := VFS.get?_lt_size hgs
      rcases hres : copyRecursive (fuel + 1) s src dstP name with ⟨s', r⟩
      have hm := copy_spec_top h hsrc hdst hdir hout hfuel hres
      have hok : r = Except.ok () := hm.2.2.2.2.2.1 hnone
      subst hok
      obtain ⟨hrec2, hpar2, hext2⟩ := hm.2.2.2.2.2.2 rfl
      refine ⟨s', rfl, ?_, hpar2, hext2⟩
      rw [dirGet, dirChildren, hrec2 dn dp dcs hdrec]
      exact lookupChild_setChild_self dcs name s.size

/-- C2 witness: copying the directory `a` of `vfsDeep` to the free root
name `b` succeeds and produces a deep copy (equal extracted subtrees at
every fuel). -/
theorem copy_collision_policy_witness :
    ∃ s', copyRecursive 4 vfsDeep 1 0 "b" = (s', Except.ok ()) ∧
      dirGet s' 0 "b" = some 3 ∧ parentOf s' 3 = some 0 ∧
      (∀ F, extract s' F 3 = extract vfsDeep F 1) :=
  ((copy_collision_policy vfsDeep 0 1 0 "b" 3 (by decide) (by decide)
      (by decide)).2 "a" (some 0) [("x", 2)] (by decide)).2 (by decide)
    (by decide) (by decide)

/-! ### C9 -/

/-- C9: on a well-formed tree, every mutator run — `add_dir`,
`add_file`, and `_copy_recursive` with *any* source, destination, name
and recursion budget, including copies into the source's own subtree
and runs aborted midway by `RecursionError` — preserves
well-formedness, and afterwards every node reachable downward from the
root other than the root itself has a parent whose children mapping
contains it under its own name. -/
theorem mutators_preserve_backrefs (s : VFS) (root : NodeId)
    (h : WF s root) :
    (∀ d n s' r, addDir s d n = (s', r) → WF s' root ∧
      ∀ j, ReachDown s' root j → j ≠ root →
        ∃ p cn, parentOf s' j = some p ∧ s'.get? j = some cn ∧
          dirGet s' p cn.name = some j) ∧
    (∀ d n c s' r, addFile s d n c = (s', r) → WF s' root ∧
      ∀ j, ReachDown s' root j → j ≠ root →
        ∃ p cn, parentOf s' j = some p ∧ s'.get? j = some cn ∧
          dirGet s' p cn.name = some j) ∧
    (∀ src dstP name fuel s' r,
      copyRecursive fuel s src dstP name = (s', r) → WF s' root ∧
      ∀ j, ReachDown s' root j → j ≠ root →
        ∃ p cn, parentOf s' j = some p ∧ s'.get? j = some cn ∧
          dirGet s' p cn.name = some j) := by
  refine ⟨?_, ?_, ?_⟩
  · intro d n s' r heq
    have hW := addDir_wf h heq
    exact ⟨hW, fun j hr hne => wf_backrefs hW j hr hne⟩
  · intro d n c s' r heq
    have hW := addFile_wf h heq
    exact ⟨hW, fun j hr hne => wf_backrefs hW j hr hne⟩
  · intro src dstP name fuel s' r heq
    have hW := copyRecursive_wf fuel s src dstP name s' r h heq
    exact ⟨hW, fun j hr hne => wf_backrefs hW j hr hne⟩

/-- C9 witness: even after the self-copy of `vfsA` that dies with
`RecursionError` midway (the C1 counterexample state), the tree is
still well-formed and the reachable non-root node `1` is registered in
its parent's dictionary under its own name. -/
theorem mutators_preserve_backrefs_witness :
    WF (copyRecursive 3 vfsA 1 1 "b").1 0 ∧
    ∃ p cn, parentOf (copyRecursive 3 vfsA 1 1 "b").1 1 = some p ∧
      (copyRecursive 3 vfsA 1 1 "b").1.get? 1 = some cn ∧
      dirGet (copyRecursive 3 vfsA 1 1 "b").1 p cn.name = some 1 := by
  have hx := (mutators_preserve_backrefs vfsA 0 (by decide)).2.2 1 1 "b" 3
    (copyRecursive 3 vfsA 1 1 "b").1 (copyRecursive 3 vfsA 1 1 "b").2 rfl
  exact ⟨hx.1, hx.2 1
    (@ReachDown.child (copyRecursive 3 vfsA 1 1 "b").1 0 0 ("a", 1)
      ReachDown.refl (by decide)) (by decide)⟩

end ShellEmulator
